import Mathlib

/-!
Verification development for the ResilientRecursion compute-and-cache service
(cmd/server/main.go together with internal/engine and internal/cache).

The Go source computes terms of the logistic recurrence
x_0 = 0.5, x_(i+1) = r * x_i * (1 - x_i) in float64 arithmetic, caches every
computed step in a bounded in-process cache (L1Cache) and persists every
checkpointMod-th step (1000 by default) in an external checkpoint store,
from which later requests resume.

Shallow embedding conventions:
- float64 values are modelled as rationals; every float64 arithmetic
  operation of the source is modelled by performing the exact rational
  operation and rounding the result to the nearest 53-bit-significand dyadic
  rational, ties to even (the IEEE-754 binary64 rounding rule, with unbounded
  exponent range, i.e. no overflow, underflow or subnormals; all values
  arising in the concrete claims lie well inside the normal range, where this
  model agrees bit for bit with binary64).
- The Redis sorted set cp:rHash of the source is modelled per key as an
  association list from checkpoint step to the exact decimal rational denoted
  by the stored text (storeCheckpoint serializes with the %.15e verb, which
  renders 16 significant decimal digits, correctly rounded); reading a
  checkpoint back (Sscanf %f) rounds that decimal to the nearest float64,
  modelled by fl. Checkpoint expiry (the one-hour TTL) is not modelled; no
  claim under verification mentions it.
- Go maps are modelled as association lists; only lookup, insert, overwrite
  and delete act on them, so list order is unobservable through those
  operations.
- The engine fields podID and totalPods are omitted from the engine state:
  they feed only the advisory isLocalR check, whose sole effect is a log
  line, never a change of state or result.
-/

set_option maxRecDepth 20000

namespace ResilientRecursion

/-! ## The binary64 model -/

/-- Bit length of a natural number below 2 to the 64, by binary descent. -/
def bitlen64 (n : ℕ) : ℕ :=
  let (n1, a1) := if n >>> 32 = 0 then (n, 0) else (n >>> 32, 32)
  let (n2, a2) := if n1 >>> 16 = 0 then (n1, a1) else (n1 >>> 16, a1 + 16)
  let (n3, a3) := if n2 >>> 8 = 0 then (n2, a2) else (n2 >>> 8, a2 + 8)
  let (n4, a4) := if n3 >>> 4 = 0 then (n3, a3) else (n3 >>> 4, a3 + 4)
  let (n5, a5) := if n4 >>> 2 = 0 then (n4, a4) else (n4 >>> 2, a4 + 2)
  let (n6, a6) := if n5 >>> 1 = 0 then (n5, a5) else (n5 >>> 1, a5 + 1)
  if n6 = 0 then a6 else a6 + 1

/-- Peel 64-bit chunks; the first argument is fuel bounding the recursion
(64 bits of the second argument are consumed per call). -/
def bitlenAux : ℕ → ℕ → ℕ
  | 0, _ => 0
  | f+1, n => if n >>> 64 = 0 then bitlen64 n else bitlenAux f (n >>> 64) + 64

/-- Number of binary digits of a natural number (0 for 0). -/
def bitlen (n : ℕ) : ℕ := bitlenAux n n

/-- Round the fraction n / d (with d positive) to the nearest integer,
ties to even: the IEEE-754 default rounding applied at integer scale. -/
def roundEvenInt (n : ℤ) (d : ℤ) : ℤ :=
  let f := Int.fdiv n d
  let r2 := 2 * (n - f * d)
  if r2 < d then f
  else if d < r2 then f + 1
  else if f % 2 = 0 then f else f + 1

/-- Round a rational to the nearest dyadic rational with a 53-bit
significand, ties to even: the value a float64 operation returning the exact
rational q would produce under IEEE-754 binary64 semantics (unbounded
exponent range). -/
def fl (q : ℚ) : ℚ :=
  if q.num = 0 then 0
  else
    let m := q.num.natAbs
    let d := q.den
    let t : ℤ := (bitlen m : ℤ) - (bitlen d : ℤ)
    let e : ℤ :=
      if 0 ≤ t then (if d * 2 ^ t.toNat ≤ m then t else t - 1)
      else (if d ≤ m * 2 ^ (-t).toNat then t else t - 1)
    let s : ℤ := 52 - e
    if 0 ≤ s then mkRat (roundEvenInt (q.num * ((2 ^ s.toNat : ℕ) : ℤ)) (d : ℤ)) (2 ^ s.toNat)
    else ((roundEvenInt q.num ((d * 2 ^ (-s).toNat : ℕ) : ℤ) * ((2 ^ (-s).toNat : ℕ) : ℤ) : ℤ) : ℚ)

/-- float64 multiplication. -/
def fmul (a b : ℚ) : ℚ := fl (a * b)

/-- float64 subtraction. -/
def fsub (a b : ℚ) : ℚ := fl (a - b)

/-- One step of the logistic recurrence exactly as the source computes it:
x = r * x * (1 - x), i.e. (r times x) times (1 minus x), each float64
operation rounded. -/
def fstep (r x : ℚ) : ℚ := fmul (fmul r x) (fsub 1 x)

/-- Iteration worker: apply the float64 logistic step the given number of
times (first argument), accumulating into x. Written accumulator-first so
that concrete runs evaluate iteratively. -/
def iterFromAux : ℕ → ℚ → ℚ → ℚ
  | 0, _, x => x
  | n+1, r, x => iterFromAux n r (fstep r x)

/-- n-fold iteration of the float64 logistic step starting from x. -/
def iterFrom (r x : ℚ) (n : ℕ) : ℚ := iterFromAux n r x

/-- The specified value of step n for parameter r: iterate
x = r * x * (1 - x) from x = 0.5 exactly n times in float64 arithmetic. -/
def logisticIter (r : ℚ) (n : ℕ) : ℚ := iterFrom r (1/2) n

/-! ## Decimal serialization model (storeCheckpoint text, verb %.15e) -/

/-- 10 to an integer power, as a rational. -/
def zpow10 (k : ℤ) : ℚ :=
  if 0 ≤ k then ((10 ^ k.toNat : ℕ) : ℚ) else (((10 : ℕ) ^ (-k).toNat : ℕ) : ℚ)⁻¹

/-- Climb k while 10 to the (k+1) still does not exceed q (fuel-bounded). -/
def decExpUp : ℕ → ℚ → ℤ → ℤ
  | 0, _, k => k
  | f+1, q, k => if zpow10 (k + 1) ≤ q then decExpUp f q (k + 1) else k

/-- Descend k while q is still below 10 to the k (fuel-bounded). -/
def decExpDown : ℕ → ℚ → ℤ → ℤ
  | 0, _, k => k
  | f+1, q, k => if q < zpow10 k then decExpDown f q (k - 1) else k

/-- The decimal exponent of a nonzero rational: the e with
10 to the e at most the absolute value of q, which is below 10 to the (e+1).
The fuel bound covers every exponent a number of that bit size can have. -/
def decExp (q : ℚ) : ℤ :=
  let a := |q|
  let fuel := bitlen q.num.natAbs + bitlen q.den + 2
  decExpDown fuel a (decExpUp fuel a 0)

/-- The exact rational denoted by the text the source writes for a
checkpoint value: storeCheckpoint serializes with the %.15e verb, i.e.
one leading digit plus 15 fractional digits of scientific notation, 16
significant decimal digits in all, correctly rounded (ties to even). -/
def roundDec16 (q : ℚ) : ℚ :=
  if q = 0 then 0
  else
    let e := decExp q
    let y := q * zpow10 (15 - e)
    (roundEvenInt y.num (y.den : ℤ) : ℚ) * zpow10 (e - 15)

/-! ## Association-list primitives

The Go source keeps two map-of-maps structures: the L1 cache
(map from series hash to map from step to value) and the checkpoint store
(one sorted set of (step, value text) per series key). Both are modelled as
association lists; only lookup, insert, overwrite and delete act on them. -/

/-- First value bound to key k (Go map read). -/
def lookupKey {α : Type} : List (ℕ × α) → ℕ → Option α
  | [], _ => none
  | p :: ps, k => if p.1 = k then some p.2 else lookupKey ps k

/-- Remove every binding of key k (Go delete). -/
def eraseKey {α : Type} : List (ℕ × α) → ℕ → List (ℕ × α)
  | [], _ => []
  | p :: ps, k => if p.1 = k then eraseKey ps k else p :: eraseKey ps k

/-- Bind key k to v, overwriting any previous binding (Go map write). -/
def setKey {α : Type} (l : List (ℕ × α)) (k : ℕ) (v : α) : List (ℕ × α) :=
  (k, v) :: eraseKey l k

/-- Update in place the series bound to key k with a write of step n
(Go: writing val at key n of the existing inner map entries[rHash]). -/
def updSeries : List (ℕ × List (ℕ × ℚ)) → ℕ → ℕ → ℚ → List (ℕ × List (ℕ × ℚ))
  | [], _, _, _ => []
  | p :: ps, k, n, v =>
    if p.1 = k then (p.1, setKey p.2 n v) :: ps else p :: updSeries ps k n v

/-- Read one step of one series out of a map-of-maps. -/
def tblGet (l : List (ℕ × List (ℕ × ℚ))) (k n : ℕ) : Option ℚ :=
  match lookupKey l k with
  | some s => lookupKey s n
  | none => none

/-! ## The L1 cache (internal/cache/l1cache.go and main.go L1Cache)

A fixed-capacity map of series keyed by rHash, plus a ring buffer of keys
recording insertion order; inserting a new key at capacity deletes the key
the ring head points at. The RWMutex is not modelled: every claim under
verification is about the sequential semantics of the operations. -/

structure L1Cache where
  entries : List (ℕ × List (ℕ × ℚ))
  keys : List ℕ
  size : ℕ
  head : ℕ

/-- NewL1Cache: empty entries, a zero-filled key ring of the given size. -/
def NewL1Cache (size : ℕ) : L1Cache :=
  ⟨[], List.replicate size 0, size, 0⟩

/-- Get returns the cached value of step n for series rHash; Go returns
(0, false) on a miss, modelled as none. -/
def L1Cache.Get (c : L1Cache) (rHash n : ℕ) : Option ℚ :=
  tblGet c.entries rHash n

/-- Set writes one step of one series. If the series key is absent, and the
cache is at capacity, the key at the ring head is deleted first; the new key
overwrites the ring head slot and the head advances. An update of an
existing key touches only that inner map. -/
def L1Cache.Set (c : L1Cache) (rHash n : ℕ) (val : ℚ) : L1Cache :=
  match lookupKey c.entries rHash with
  | some _ => { c with entries := updSeries c.entries rHash n val }
  | none =>
    let entries1 :=
      if c.size ≤ c.entries.length then eraseKey c.entries (c.keys.getD c.head 0)
      else c.entries
    { c with
      entries := (rHash, [(n, val)]) :: entries1
      keys := c.keys.set c.head rHash
      head := (c.head + 1) % c.size }

/-- The series keys currently held, newest insertion first. -/
def entriesKeys (c : L1Cache) : List ℕ := c.entries.map Prod.fst

/-- The key ring read cyclically starting at the head slot. -/
def ringAt (c : L1Cache) : List ℕ := c.keys.drop c.head ++ c.keys.take c.head

/-- Structural invariant of the ring cache maintained by Set: the ring is
full-length, the head is in range, and the held keys (newest first) are
exactly the reverse of the trailing segment of the ring, without
duplicates. -/
def CacheInv (c : L1Cache) : Prop :=
  c.keys.length = c.size ∧ c.head < c.size ∧ c.entries.length ≤ c.size ∧
  entriesKeys c = ((ringAt c).drop (c.size - c.entries.length)).reverse ∧
  (entriesKeys c).Nodup

/-- Replay a sequence of Set operations (key, step, value). -/
def applyOps (ops : List (ℕ × ℕ × ℚ)) (c : L1Cache) : L1Cache :=
  ops.foldl (fun c op => c.Set op.1 op.2.1 op.2.2) c

/-- Insert a list of series keys in order into a fresh cache of capacity s,
one Set each (step 0, value 0). -/
def insertKeys (s : ℕ) (ks : List ℕ) : L1Cache :=
  applyOps (ks.map (fun k => (k, 0, 0))) (NewL1Cache s)

/-! ## The checkpoint store and the compute engine (main.go) -/

/-- The checkpoint store: per series key, the persisted (step, value)
pairs, the value being the exact decimal rational the stored text denotes. -/
abbrev Store := List (ℕ × List (ℕ × ℚ))

/-- The entry with the largest step at most n, if any: Redis
ZRevRangeByScore with Min 0, Max n, Count 1. -/
def bestAtOrBelow : List (ℕ × ℚ) → ℕ → Option (ℕ × ℚ)
  | [], _ => none
  | p :: ps, n =>
    let rest := bestAtOrBelow ps n
    if p.1 ≤ n then
      match rest with
      | none => some p
      | some q => if q.1 < p.1 then some p else some q
    else rest

/-- The entry with the largest step, if any: Redis ZRevRangeWithScores
0 0 (used by PreheatCache). -/
def latestCheckpoint : List (ℕ × ℚ) → Option (ℕ × ℚ)
  | [] => none
  | p :: ps =>
    match latestCheckpoint ps with
    | none => some p
    | some q => if q.1 < p.1 then some p else some q

/-- findNearestCheckpoint: the largest checkpoint step at most n for the
series, together with the float64 the stored text parses to (Sscanf %f,
i.e. nearest float64 of the stored decimal, modelled by fl). Go returns
(nil, 0) when the key is absent or empty, modelled none. -/
def findNearestCheckpoint (st : Store) (rHash n : ℕ) : Option (ℚ × ℕ) :=
  match lookupKey st rHash with
  | none => none
  | some cps =>
    match bestAtOrBelow cps n with
    | none => none
    | some p => some (fl p.2, p.1)

/-- storeCheckpoint: upsert the pair (n, text of x) into the series key,
the text denoting the decimal roundDec16 x (the %.15e rendering). -/
def storeCheckpoint (st : Store) (rHash n : ℕ) (x : ℚ) : Store :=
  match lookupKey st rHash with
  | some _ => updSeries st rHash n (roundDec16 x)
  | none => (rHash, [(n, roundDec16 x)]) :: st

/-- The compute engine state: the L1 cache, the checkpoint store contents
reachable through the Redis client, and the checkpoint interval. -/
structure ComputeEngine where
  l1Cache : L1Cache
  store : Store
  checkpointMod : ℕ

/-- NewComputeEngine: L1 capacity 75, checkpoint interval 1000, and (for
this model) an empty store. -/
def NewComputeEngine : ComputeEngine :=
  ⟨NewL1Cache 75, [], 1000⟩

/-- The series key of parameter r. The source uses math.Float64bits, an
injective map from float64 values to uint64; the claims depend only on
distinct parameters having distinct keys, so the key is modelled as an
injective encoding of the rational parameter. -/
def hashFloat64 (r : ℚ) : ℕ :=
  Nat.pair (if 0 ≤ r.num then 2 * r.num.toNat else 2 * (-r.num).toNat + 1) r.den

/-- The sequential computation loop of Compute: for i from computeFrom
while i < n, set x to fstep r x, write step i+1 into L1, and persist a
checkpoint when (i+1) is a multiple of the checkpoint interval. The first
argument is the remaining iteration count n - i. -/
def computeSteps : ℕ → ComputeEngine → ℚ → ℕ → ℚ → ℕ → ℚ × ComputeEngine
  | 0, e, _, _, x, _ => (x, e)
  | fuel+1, e, r, rHash, x, i =>
    let x1 := fstep r x
    let c1 := e.l1Cache.Set rHash (i+1) x1
    let st1 :=
      if (i+1) % e.checkpointMod = 0 then storeCheckpoint e.store rHash (i+1) x1
      else e.store
    computeSteps fuel ⟨c1, st1, e.checkpointMod⟩ r rHash x1 (i+1)

/-- Compute: on an L1 hit return immediately; otherwise resume from the
nearest checkpoint at or below n (or from (0, 0.5) when none) and iterate
to n. Returns the value together with the resulting engine state. The
advisory ownership check of the source only logs and is omitted. -/
def ComputeEngine.Compute (e : ComputeEngine) (r : ℚ) (n : ℕ) : ℚ × ComputeEngine :=
  let rHash := hashFloat64 r
  match e.l1Cache.Get rHash n with
  | some val => (val, e)
  | none =>
    match findNearestCheckpoint e.store rHash n with
    | some cp => computeSteps (n - cp.2) e r rHash cp.1 cp.2
    | none => computeSteps n e r rHash (1/2) 0

/-- The scan loop of PreheatCache: walk the store keys, seed L1 with each
latest checkpoint (parsed from its text), count the loaded entries and
stop once 50 are loaded; keys without checkpoints are skipped and not
counted. -/
def preheatAux : Store → ℕ → L1Cache → L1Cache
  | [], _, c => c
  | p :: ps, loaded, c =>
    match latestCheckpoint p.2 with
    | none => preheatAux ps loaded c
    | some q =>
      let c1 := c.Set p.1 q.1 (fl q.2)
      if 50 ≤ loaded + 1 then c1 else preheatAux ps (loaded + 1) c1

/-- PreheatCache: seed the L1 cache from the latest checkpoint of up to 50
store keys. -/
def ComputeEngine.PreheatCache (e : ComputeEngine) : ComputeEngine :=
  { e with l1Cache := preheatAux e.store 0 e.l1Cache }

/-! ## Pod partitioner and pod identifier parsing -/

/-- The eight bytes of a uint64 in little-endian order (binary.Write with
binary.LittleEndian). -/
def uint64LEBytes (x : ℕ) : List ℕ :=
  [x % 256, x / 2^8 % 256, x / 2^16 % 256, x / 2^24 % 256,
   x / 2^32 % 256, x / 2^40 % 256, x / 2^48 % 256, x / 2^56 % 256]

/-- 32-bit FNV-1a over a byte sequence (hash/fnv New32a then Write). -/
def fnv1a32 (bs : List ℕ) : ℕ :=
  bs.foldl (fun h b => ((h ^^^ b) * 16777619) % 2^32) 2166136261

/-- GetPodForR: FNV-1a of the little-endian bytes of the series key,
reduced modulo uint32(totalPods). Go computes h.Sum32() % uint32(totalPods)
and panics (integer divide by zero) when uint32(totalPods) is zero, i.e.
when totalPods is a multiple of 2 to the 32; the panic is modelled as
none. -/
def GetPodForR (rHash totalPods : ℕ) : Option ℕ :=
  let m := totalPods % 2^32
  if m = 0 then none
  else some (fnv1a32 (uint64LEBytes rHash) % m)

/-- Decimal digit test on a character (ASCII codes 48 to 57). -/
def digitCh (c : Char) : Bool := 48 ≤ c.toNat && c.toNat ≤ 57

/-- Numeric value of a decimal digit character. -/
def digitValCh (c : Char) : ℕ := c.toNat - 48

/-- Space or horizontal tab, the whitespace the %d verb skips within a
line. -/
def isWsCh (c : Char) : Bool := c.toNat = 32 || c.toNat = 9

/-- Match a literal character sequence at the front of the input, returning
the remainder (the literal part of the Sscanf format). -/
def stripPre : List Char → List Char → Option (List Char)
  | [], rest => some rest
  | _ :: _, [] => none
  | p :: ps, c :: cs => if c = p then stripPre ps cs else none

/-- Greedily read decimal digits into an accumulator, stopping at the first
non-digit. -/
def parseDigitsAcc : List Char → ℕ → ℕ
  | [], acc => acc
  | c :: cs, acc => if digitCh c then parseDigitsAcc cs (acc * 10 + digitValCh c) else acc

/-- The format literal pod- as characters. -/
def podPre : List Char := ['p', 'o', 'd', '-']

/-- ParsePodID models fmt.Sscanf(podID, pod-%d, id): match the literal
pod- exactly, then scan an integer: skip spaces and tabs, accept an
optional sign, then at least one digit (otherwise the scan fails and id
keeps its zero value); the digits are consumed greedily and anything after
them is ignored; a magnitude outside int64 makes strconv fail, so id again
stays 0. -/
def ParsePodID (s : String) : ℤ :=
  match stripPre podPre s.toList with
  | none => 0
  | some rest =>
    match rest.dropWhile isWsCh with
    | [] => 0
    | c :: cs =>
      if c.toNat = 45 then
        match cs with
        | [] => 0
        | d :: _ =>
          if digitCh d then
            (if parseDigitsAcc cs 0 ≤ 2^63 then -(parseDigitsAcc cs 0 : ℤ) else 0)
          else 0
      else if c.toNat = 43 then
        match cs with
        | [] => 0
        | d :: _ =>
          if digitCh d then
            (if parseDigitsAcc cs 0 < 2^63 then (parseDigitsAcc cs 0 : ℤ) else 0)
          else 0
      else if digitCh c then
        (if parseDigitsAcc (c :: cs) 0 < 2^63 then (parseDigitsAcc (c :: cs) 0 : ℤ) else 0)
      else 0

/-- The canonical decimal digit characters of a natural number. -/
def digitChars (i : ℕ) : List Char :=
  if i = 0 then [Char.ofNat 48]
  else ((Nat.digits 10 i).reverse).map (fun d => Char.ofNat (48 + d))

/-- A well-formed pod identifier: the literal pod- followed by the decimal
digits of i. -/
def podIDString (i : ℕ) : String :=
  String.mk ('p' :: 'o' :: 'd' :: '-' :: digitChars i)

/-! ## Helper lemmas: the iteration -/

theorem iterFrom_zero (r x : ℚ) : iterFrom r x 0 = x := rfl

theorem iterFrom_shift (r x : ℚ) (n : ℕ) :
    iterFrom r (fstep r x) n = iterFrom r x (n + 1) := rfl

theorem iterFrom_succ (r x : ℚ) (n : ℕ) :
    iterFrom r x (n + 1) = fstep r (iterFrom r x n) := by
  induction n generalizing x with
  | zero => rfl
  | succ n ih =>
    rw [← iterFrom_shift r x (n + 1), ih (fstep r x), iterFrom_shift]

theorem iterFrom_add (r x : ℚ) (a b : ℕ) :
    iterFrom r x (a + b) = iterFrom r (iterFrom r x a) b := by
  induction b with
  | zero => rfl
  | succ b ih => rw [← Nat.add_assoc, iterFrom_succ, iterFrom_succ, ih]

/-- Step 1000 of the float64 logistic iteration for r = 57/16 = 3.5625,
evaluated in ten chunks of one hundred steps. -/
theorem logisticIter_c3_eval :
    logisticIter (57/16) 1000 = mkRat 8867266824907491 18014398509481984 := by
  have h0 : logisticIter (57/16) 1000 = iterFrom (mkRat 57 16) (mkRat 1 2) 1000 := by
    with_unfolding_all rfl
  have h1 : iterFrom (mkRat 57 16) (mkRat 1 2) 100 = mkRat 4980577028014739 9007199254740992 := by
    with_unfolding_all rfl
  have h2 : iterFrom (mkRat 57 16) (mkRat 4980577028014739 9007199254740992) 100 =
      mkRat 4433506230486677 9007199254740992 := by with_unfolding_all rfl
  have h3 : iterFrom (mkRat 57 16) (mkRat 4433506230486677 9007199254740992) 100 =
      mkRat 4979714656809715 9007199254740992 := by with_unfolding_all rfl
  have h4 : iterFrom (mkRat 57 16) (mkRat 4979714656809715 9007199254740992) 100 =
      mkRat 8867267750813351 18014398509481984 := by with_unfolding_all rfl
  have h5 : iterFrom (mkRat 57 16) (mkRat 8867267750813351 18014398509481984) 100 =
      mkRat 311232363578867 562949953421312 := by with_unfolding_all rfl
  have h6 : iterFrom (mkRat 57 16) (mkRat 311232363578867 562949953421312) 100 =
      mkRat 1108408352692371 2251799813685248 := by with_unfolding_all rfl
  have h7 : iterFrom (mkRat 57 16) (mkRat 1108408352692371 2251799813685248) 100 =
      mkRat 1244929451440865 2251799813685248 := by with_unfolding_all rfl
  have h8 : iterFrom (mkRat 57 16) (mkRat 1244929451440865 2251799813685248) 100 =
      mkRat 8867266824919933 18014398509481984 := by with_unfolding_all rfl
  have h9 : iterFrom (mkRat 57 16) (mkRat 8867266824919933 18014398509481984) 100 =
      mkRat 1244929451451325 2251799813685248 := by with_unfolding_all rfl
  have h10 : iterFrom (mkRat 57 16) (mkRat 1244929451451325 2251799813685248) 100 =
      mkRat 8867266824907491 18014398509481984 := by with_unfolding_all rfl
  rw [h0]
  rw [show (1000:ℕ) = 100+100+100+100+100+100+100+100+100+100 from rfl]
  rw [iterFrom_add, iterFrom_add, iterFrom_add, iterFrom_add, iterFrom_add,
      iterFrom_add, iterFrom_add, iterFrom_add, iterFrom_add]
  rw [h1, h2, h3, h4, h5, h6, h7, h8, h9, h10]

/-! ## Helper lemmas: association lists -/

theorem lookupKey_eraseKey {α : Type} (l : List (ℕ × α)) (k j : ℕ) :
    lookupKey (eraseKey l k) j = if j = k then none else lookupKey l j := by
  induction l with
  | nil => simp [eraseKey, lookupKey]
  | cons p ps ih =>
    show lookupKey (if p.1 = k then eraseKey ps k else p :: eraseKey ps k) j = _
    by_cases hpk : p.1 = k
    · rw [if_pos hpk, ih]
      by_cases hjk : j = k
      · rw [if_pos hjk, if_pos hjk]
      · rw [if_neg hjk, if_neg hjk]
        show _ = if p.1 = j then some p.2 else lookupKey ps j
        have hpj : ¬ p.1 = j := by
          rw [hpk]; intro hh; exact hjk hh.symm
        rw [if_neg hpj]
    · rw [if_neg hpk]
      show (if p.1 = j then some p.2 else lookupKey (eraseKey ps k) j) = _
      by_cases hpj : p.1 = j
      · have hjk : ¬ j = k := by rw [← hpj]; exact hpk
        rw [if_pos hpj, if_neg hjk]
        show _ = if p.1 = j then some p.2 else lookupKey ps j
        rw [if_pos hpj]
      · rw [if_neg hpj, ih]
        by_cases hjk : j = k
        · rw [if_pos hjk, if_pos hjk]
        · rw [if_neg hjk, if_neg hjk]
          show _ = if p.1 = j then some p.2 else lookupKey ps j
          rw [if_neg hpj]

theorem lookupKey_setKey {α : Type} (l : List (ℕ × α)) (k j : ℕ) (v : α) :
    lookupKey (setKey l k v) j = if j = k then some v else lookupKey l j := by
  show (if k = j then some v else lookupKey (eraseKey l k) j) = _
  by_cases hjk : j = k
  · rw [if_pos hjk.symm, if_pos hjk]
  · have hkj : ¬ k = j := fun hh => hjk hh.symm
    rw [if_neg hkj, if_neg hjk, lookupKey_eraseKey, if_neg hjk]

theorem lookupKey_updSeries_same (l : List (ℕ × List (ℕ × ℚ))) (k n : ℕ) (v : ℚ)
    (s : List (ℕ × ℚ)) (h : lookupKey l k = some s) :
    lookupKey (updSeries l k n v) k = some (setKey s n v) := by
  induction l with
  | nil => exact absurd h (by simp [lookupKey])
  | cons p ps ih =>
    show lookupKey (if p.1 = k then (p.1, setKey p.2 n v) :: ps else p :: updSeries ps k n v) k = _
    by_cases hpk : p.1 = k
    · rw [if_pos hpk]
      show (if p.1 = k then some (setKey p.2 n v) else lookupKey ps k) = _
      rw [if_pos hpk]
      have hps : p.2 = s := by
        have := h
        rw [show lookupKey (p :: ps) k = if p.1 = k then some p.2 else lookupKey ps k from rfl,
          if_pos hpk] at this
        exact Option.some.inj this
      rw [hps]
    · rw [if_neg hpk]
      show (if p.1 = k then some p.2 else lookupKey (updSeries ps k n v) k) = _
      rw [if_neg hpk]
      apply ih
      have := h
      rw [show lookupKey (p :: ps) k = if p.1 = k then some p.2 else lookupKey ps k from rfl,
        if_neg hpk] at this
      exact this

theorem lookupKey_updSeries_other (l : List (ℕ × List (ℕ × ℚ))) (k n : ℕ) (v : ℚ)
    (j : ℕ) (h : j ≠ k) :
    lookupKey (updSeries l k n v) j = lookupKey l j := by
  induction l with
  | nil => rfl
  | cons p ps ih =>
    show lookupKey (if p.1 = k then (p.1, setKey p.2 n v) :: ps else p :: updSeries ps k n v) j = _
    by_cases hpk : p.1 = k
    · rw [if_pos hpk]
      show (if p.1 = j then some (setKey p.2 n v) else lookupKey ps j) = _
      have hpj : ¬ p.1 = j := by
        rw [hpk]; intro hh; exact h hh.symm
      rw [if_neg hpj]
      show _ = if p.1 = j then some p.2 else lookupKey ps j
      rw [if_neg hpj]
    · rw [if_neg hpk]
      show (if p.1 = j then some p.2 else lookupKey (updSeries ps k n v) j) = _
      by_cases hpj : p.1 = j
      · rw [if_pos hpj]
        show _ = if p.1 = j then some p.2 else lookupKey ps j
        rw [if_pos hpj]
      · rw [if_neg hpj, ih]
        show _ = if p.1 = j then some p.2 else lookupKey ps j
        rw [if_neg hpj]

/-! ## Helper lemmas: cache and store single writes -/

theorem L1Cache_Get_Set_same_key (c : L1Cache) (k n j : ℕ) (v : ℚ) :
    (c.Set k n v).Get k j = if j = n then some v else c.Get k j := by
  cases hl : lookupKey c.entries k with
  | some s =>
    have hset : (c.Set k n v).entries = updSeries c.entries k n v := by
      simp only [L1Cache.Set, hl]
    show tblGet (c.Set k n v).entries k j = _
    rw [hset]
    unfold tblGet
    rw [lookupKey_updSeries_same c.entries k n v s hl]
    show lookupKey (setKey s n v) j = _
    rw [lookupKey_setKey]
    show _ = if j = n then some v else tblGet c.entries k j
    unfold tblGet
    rw [hl]
  | none =>
    have hset : (c.Set k n v).entries = (k, [(n, v)]) ::
        (if c.size ≤ c.entries.length then eraseKey c.entries (c.keys.getD c.head 0)
         else c.entries) := by
      simp only [L1Cache.Set, hl]
    show tblGet (c.Set k n v).entries k j = _
    rw [hset]
    by_cases hjn : j = n
    · subst hjn
      simp [tblGet, lookupKey]
    · have hnj : ¬ n = j := fun hh => hjn hh.symm
      simp [L1Cache.Get, tblGet, lookupKey, hl, hjn, hnj]

theorem tblGet_storeCheckpoint_same_key (st : Store) (k n j : ℕ) (x : ℚ) :
    tblGet (storeCheckpoint st k n x) k j =
      if j = n then some (roundDec16 x) else tblGet st k j := by
  cases hl : lookupKey st k with
  | some s =>
    have hset : storeCheckpoint st k n x = updSeries st k n (roundDec16 x) := by
      simp only [storeCheckpoint, hl]
    rw [hset]
    unfold tblGet
    rw [lookupKey_updSeries_same st k n (roundDec16 x) s hl]
    show lookupKey (setKey s n (roundDec16 x)) j = _
    rw [lookupKey_setKey, hl]
  | none =>
    have hset : storeCheckpoint st k n x = (k, [(n, roundDec16 x)]) :: st := by
      simp only [storeCheckpoint, hl]
    rw [hset]
    by_cases hjn : j = n
    · subst hjn
      simp [tblGet, lookupKey]
    · have hnj : ¬ n = j := fun hh => hjn hh.symm
      simp [tblGet, lookupKey, hl, hjn, hnj]

theorem tblGet_storeCheckpoint_other (st : Store) (k n : ℕ) (x : ℚ)
    (k2 j : ℕ) (h : k2 ≠ k) :
    tblGet (storeCheckpoint st k n x) k2 j = tblGet st k2 j := by
  cases hl : lookupKey st k with
  | some s =>
    have hset : storeCheckpoint st k n x = updSeries st k n (roundDec16 x) := by
      simp only [storeCheckpoint, hl]
    rw [hset]
    unfold tblGet
    rw [lookupKey_updSeries_other st k n (roundDec16 x) k2 h]
  | none =>
    have hset : storeCheckpoint st k n x = (k, [(n, roundDec16 x)]) :: st := by
      simp only [storeCheckpoint, hl]
    rw [hset]
    have hkk : ¬ k = k2 := fun hh => h hh.symm
    unfold tblGet
    show (match (if k = k2 then some [(n, roundDec16 x)] else lookupKey st k2) with
      | some s => lookupKey s j
      | none => none) = _
    rw [if_neg hkk]

/-! ## Helper lemmas: the Compute dispatch and the loop -/

theorem Compute_hit {e : ComputeEngine} {r : ℚ} {n : ℕ} {v : ℚ}
    (h : e.l1Cache.Get (hashFloat64 r) n = some v) :
    e.Compute r n = (v, e) := by
  simp only [ComputeEngine.Compute, h]

theorem Compute_resume {e : ComputeEngine} {r : ℚ} {n : ℕ} {v : ℚ} {m : ℕ}
    (h1 : e.l1Cache.Get (hashFloat64 r) n = none)
    (h2 : findNearestCheckpoint e.store (hashFloat64 r) n = some (v, m)) :
    e.Compute r n = computeSteps (n - m) e r (hashFloat64 r) v m := by
  simp only [ComputeEngine.Compute, h1, h2]

theorem Compute_scratch {e : ComputeEngine} {r : ℚ} {n : ℕ}
    (h1 : e.l1Cache.Get (hashFloat64 r) n = none)
    (h2 : findNearestCheckpoint e.store (hashFloat64 r) n = none) :
    e.Compute r n = computeSteps n e r (hashFloat64 r) (1/2) 0 := by
  simp only [ComputeEngine.Compute, h1, h2]

theorem computeSteps_fst (fuel : ℕ) :
    ∀ (e : ComputeEngine) (r : ℚ) (k : ℕ) (x : ℚ) (i : ℕ),
    (computeSteps fuel e r k x i).1 = iterFrom r x fuel := by
  induction fuel with
  | zero => intro e r k x i; rfl
  | succ fuel ih =>
    intro e r k x i
    show (computeSteps fuel _ r k (fstep r x) (i+1)).1 = _
    rw [ih, iterFrom_shift]

theorem computeSteps_mod (fuel : ℕ) :
    ∀ (e : ComputeEngine) (r : ℚ) (k : ℕ) (x : ℚ) (i : ℕ),
    (computeSteps fuel e r k x i).2.checkpointMod = e.checkpointMod := by
  induction fuel with
  | zero => intro e r k x i; rfl
  | succ fuel ih => intro e r k x i; exact ih _ r k (fstep r x) (i+1)

theorem computeSteps_cache (fuel : ℕ) :
    ∀ (e : ComputeEngine) (r : ℚ) (k : ℕ) (x : ℚ) (i j : ℕ),
    (computeSteps fuel e r k x i).2.l1Cache.Get k j =
      if i < j ∧ j ≤ i + fuel then some (iterFrom r x (j - i))
      else e.l1Cache.Get k j := by
  induction fuel with
  | zero =>
    intro e r k x i j
    show e.l1Cache.Get k j = _
    rw [if_neg (by omega : ¬ (i < j ∧ j ≤ i + 0))]
  | succ fuel ih =>
    intro e r k x i j
    show (computeSteps fuel ⟨e.l1Cache.Set k (i+1) (fstep r x), _, _⟩ r k (fstep r x) (i+1)).2.l1Cache.Get k j = _
    rw [ih]
    by_cases hin : i + 1 < j ∧ j ≤ i + 1 + fuel
    · have hout : i < j ∧ j ≤ i + (fuel + 1) := by omega
      rw [if_pos hin, if_pos hout, iterFrom_shift]
      congr 2
      omega
    · rw [if_neg hin]
      show (L1Cache.Set e.l1Cache k (i+1) (fstep r x)).Get k j = _
      rw [L1Cache_Get_Set_same_key]
      by_cases hj1 : j = i + 1
      · subst hj1
        have hout : i < i + 1 ∧ i + 1 ≤ i + (fuel + 1) := by omega
        rw [if_pos rfl, if_pos hout]
        have h1 : (i + 1) - i = 1 := by omega
        rw [h1]
        rfl
      · have hout : ¬ (i < j ∧ j ≤ i + (fuel + 1)) := by omega
        rw [if_neg hj1, if_neg hout]

theorem computeSteps_store_same (fuel : ℕ) :
    ∀ (e : ComputeEngine) (r : ℚ) (k : ℕ) (x : ℚ) (i j : ℕ),
    tblGet (computeSteps fuel e r k x i).2.store k j =
      if i < j ∧ j ≤ i + fuel ∧ j % e.checkpointMod = 0 then
        some (roundDec16 (iterFrom r x (j - i)))
      else tblGet e.store k j := by
  induction fuel with
  | zero =>
    intro e r k x i j
    show tblGet e.store k j = _
    rw [if_neg (by omega : ¬ (i < j ∧ j ≤ i + 0 ∧ j % e.checkpointMod = 0))]
  | succ fuel ih =>
    intro e r k x i j
    show tblGet (computeSteps fuel ⟨_, (if (i+1) % e.checkpointMod = 0 then storeCheckpoint e.store k (i+1) (fstep r x) else e.store), e.checkpointMod⟩ r k (fstep r x) (i+1)).2.store k j = _
    rw [ih]
    by_cases hin : i + 1 < j ∧ j ≤ i + 1 + fuel ∧ j % e.checkpointMod = 0
    · have hout : i < j ∧ j ≤ i + (fuel + 1) ∧ j % e.checkpointMod = 0 := by omega
      rw [if_pos hin, if_pos hout, iterFrom_shift]
      congr 3
      omega
    · rw [if_neg hin]
      by_cases hcp : (i+1) % e.checkpointMod = 0
      · rw [if_pos hcp, tblGet_storeCheckpoint_same_key]
        by_cases hj1 : j = i + 1
        · subst hj1
          have hout : i < i + 1 ∧ i + 1 ≤ i + (fuel + 1) ∧ (i + 1) % e.checkpointMod = 0 :=
            ⟨by omega, by omega, hcp⟩
          rw [if_pos rfl, if_pos hout]
          have h1 : (i + 1) - i = 1 := by omega
          rw [h1]
          rfl
        · have hout : ¬ (i < j ∧ j ≤ i + (fuel + 1) ∧ j % e.checkpointMod = 0) := by
            intro hcon
            rcases hcon with ⟨ha, hb, hc⟩
            exact hin ⟨by omega, by omega, hc⟩
          rw [if_neg hj1, if_neg hout]
      · rw [if_neg hcp]
        by_cases hout : i < j ∧ j ≤ i + (fuel + 1) ∧ j % e.checkpointMod = 0
        · exfalso
          rcases hout with ⟨ha, hb, hc⟩
          by_cases hj1 : j = i + 1
          · rw [hj1] at hc; exact hcp hc
          · exact hin ⟨by omega, by omega, hc⟩
        · rw [if_neg hout]

/-- Freshly constructed engine: every L1 probe misses. -/
theorem NewComputeEngine_Get (k n : ℕ) :
    NewComputeEngine.l1Cache.Get k n = none := rfl

/-- Freshly constructed engine: the store has no checkpoints. -/
theorem NewComputeEngine_findNearest (k n : ℕ) :
    findNearestCheckpoint NewComputeEngine.store k n = none := rfl

theorem computeSteps_store_other (fuel : ℕ) :
    ∀ (e : ComputeEngine) (r : ℚ) (k : ℕ) (x : ℚ) (i : ℕ) (k2 j : ℕ),
    k2 ≠ k →
    tblGet (computeSteps fuel e r k x i).2.store k2 j = tblGet e.store k2 j := by
  induction fuel with
  | zero => intro e r k x i k2 j _; rfl
  | succ fuel ih =>
    intro e r k x i k2 j hk
    show tblGet (computeSteps fuel ⟨_, (if (i+1) % e.checkpointMod = 0 then storeCheckpoint e.store k (i+1) (fstep r x) else e.store), e.checkpointMod⟩ r k (fstep r x) (i+1)).2.store k2 j = _
    rw [ih _ r k (fstep r x) (i+1) k2 j hk]
    by_cases hcp : (i+1) % e.checkpointMod = 0
    · simp only [if_pos hcp]
      exact tblGet_storeCheckpoint_other e.store k (i+1) (fstep r x) k2 j hk
    · simp only [if_neg hcp]

/-- Splitting the loop: running a + b steps is running a steps and then b
more from the state and value reached. -/
theorem computeSteps_append (a b : ℕ) :
    ∀ (e : ComputeEngine) (r : ℚ) (k : ℕ) (x : ℚ) (i : ℕ),
    computeSteps (a + b) e r k x i =
      computeSteps b (computeSteps a e r k x i).2 r k (computeSteps a e r k x i).1 (i + a) := by
  induction a with
  | zero =>
    intro e r k x i
    rw [Nat.zero_add]
    rfl
  | succ a ih =>
    intro e r k x i
    have hunf : computeSteps (a + 1) e r k x i =
        computeSteps a ⟨e.l1Cache.Set k (i+1) (fstep r x),
          (if (i+1) % e.checkpointMod = 0 then storeCheckpoint e.store k (i+1) (fstep r x)
           else e.store), e.checkpointMod⟩ r k (fstep r x) (i+1) := rfl
    rw [show a + 1 + b = (a + b) + 1 from by omega]
    have hunf2 : computeSteps ((a + b) + 1) e r k x i =
        computeSteps (a + b) ⟨e.l1Cache.Set k (i+1) (fstep r x),
          (if (i+1) % e.checkpointMod = 0 then storeCheckpoint e.store k (i+1) (fstep r x)
           else e.store), e.checkpointMod⟩ r k (fstep r x) (i+1) := rfl
    rw [hunf2, ih, hunf, show i + (a + 1) = (i + 1) + a from by omega]

/-- When no step index in the range is a multiple of the checkpoint
interval, the loop leaves the store untouched. -/
theorem computeSteps_store_frame (fuel : ℕ) :
    ∀ (e : ComputeEngine) (r : ℚ) (k : ℕ) (x : ℚ) (i : ℕ),
    (∀ j, i < j → j ≤ i + fuel → j % e.checkpointMod ≠ 0) →
    (computeSteps fuel e r k x i).2.store = e.store := by
  induction fuel with
  | zero => intro e r k x i _; rfl
  | succ fuel ih =>
    intro e r k x i hno
    have hcp : ¬ (i + 1) % e.checkpointMod = 0 := hno (i+1) (by omega) (by omega)
    show (computeSteps fuel ⟨e.l1Cache.Set k (i+1) (fstep r x),
        (if (i+1) % e.checkpointMod = 0 then storeCheckpoint e.store k (i+1) (fstep r x)
         else e.store), e.checkpointMod⟩ r k (fstep r x) (i+1)).2.store = e.store
    have hih := ih ⟨e.l1Cache.Set k (i+1) (fstep r x),
        (if (i+1) % e.checkpointMod = 0 then storeCheckpoint e.store k (i+1) (fstep r x)
         else e.store), e.checkpointMod⟩ r k (fstep r x) (i+1)
        (fun j h1 h2 => hno j (by omega) (by omega))
    rw [hih]
    show (if (i+1) % e.checkpointMod = 0 then storeCheckpoint e.store k (i+1) (fstep r x)
         else e.store) = e.store
    rw [if_neg hcp]

/-- From-scratch value of Compute on a fresh engine, shared by several
claims below. -/
theorem Compute_fresh_value (r : ℚ) (n : ℕ) :
    (NewComputeEngine.Compute r n).1 = logisticIter r n := by
  rw [Compute_scratch (NewComputeEngine_Get _ n) (NewComputeEngine_findNearest _ n),
    computeSteps_fst]
  rfl

/-- The store left behind by a from-scratch run to exactly step 1000 (the
checkpoint interval): a single checkpoint at step 1000 holding the decimal
text of the computed value. -/
theorem Compute_scratch_store_at_mod (r : ℚ) :
    (NewComputeEngine.Compute r 1000).2.store =
      [(hashFloat64 r, [(1000, roundDec16 (logisticIter r 1000))])] := by
  rw [Compute_scratch (NewComputeEngine_Get _ 1000) (NewComputeEngine_findNearest _ 1000)]
  rw [show (1000:ℕ) = 999 + 1 from rfl, computeSteps_append, Nat.zero_add]
  have h1 : ∀ (e2 : ComputeEngine) (x : ℚ),
      (computeSteps 1 e2 r (hashFloat64 r) x 999).2.store =
        if (999 + 1) % e2.checkpointMod = 0 then
          storeCheckpoint e2.store (hashFloat64 r) (999 + 1) (fstep r x)
        else e2.store := fun e2 x => rfl
  rw [h1]
  rw [computeSteps_mod]
  rw [show NewComputeEngine.checkpointMod = 1000 from rfl]
  rw [if_pos (by norm_num : (999 + 1) % 1000 = 0)]
  rw [computeSteps_store_frame 999 NewComputeEngine r (hashFloat64 r) (1/2) 0
    (by intro j h1 h2; show ¬ j % 1000 = 0; omega)]
  rw [computeSteps_fst]
  rw [show NewComputeEngine.store = ([] : Store) from rfl]
  show (hashFloat64 r, [(999 + 1, roundDec16 (fstep r (iterFrom r (1/2) 999)))]) :: [] = _
  rw [show fstep r (iterFrom r (1/2) 999) = logisticIter r 1000 from
    (iterFrom_succ r (1/2) 999).symm]

/-! ## Claim theorems -/

/-- Claim C1: with the L1 cache and the checkpoint store empty, Compute(r, n)
returns the n-fold iterate of x = r * x * (1 - x) from x = 0.5 under binary64
float semantics, for every finite r and every n; in particular
Compute(4.0, 1) = 1.0 and Compute(4.0, 2) = 0.0. -/
theorem claim_C1 :
    (∀ (r : ℚ) (n : ℕ), (NewComputeEngine.Compute r n).1 = logisticIter r n)
    ∧ (NewComputeEngine.Compute 4 1).1 = 1
    ∧ (NewComputeEngine.Compute 4 2).1 = 0 := by
  refine ⟨Compute_fresh_value, ?_, ?_⟩
  · rw [Compute_fresh_value]
    with_unfolding_all rfl
  · rw [Compute_fresh_value]
    with_unfolding_all rfl

/-- Claim C8: when the L1 cache holds a value v for (Hash r, n), Compute
returns v at once and the whole engine state, cache and store alike, is
returned unchanged (no store query is observable in the state). -/
theorem claim_C8 (e : ComputeEngine) (r : ℚ) (n : ℕ) (v : ℚ)
    (h : e.l1Cache.Get (hashFloat64 r) n = some v) :
    e.Compute r n = (v, e) :=
  Compute_hit h

/-- Witness for claim C8 at a concrete engine whose cache holds the value
7/8 for series 4 at step 2. -/
theorem claim_C8_witness :
    (ComputeEngine.mk ((NewL1Cache 75).Set (hashFloat64 4) 2 (7/8)) [] 1000).Compute 4 2 =
      (7/8, ComputeEngine.mk ((NewL1Cache 75).Set (hashFloat64 4) 2 (7/8)) [] 1000) :=
  claim_C8 _ 4 2 (7/8) (by with_unfolding_all rfl)

/-- Claim C10: on an L1 miss, when the checkpoint lookup resumes at a step
m at least n (in the source the lookup never returns m above n, so this is
m = n), Compute returns the resume value with the engine unchanged, and a
repeated identical request traverses the same miss path with the same
outcome; likewise for n = 0 with no checkpoint available, where the
returned value is the initial condition 0.5, again uncached. -/
theorem claim_C10 (e : ComputeEngine) (r : ℚ) (n : ℕ) (v : ℚ) (m : ℕ)
    (hmiss : e.l1Cache.Get (hashFloat64 r) n = none) :
    (findNearestCheckpoint e.store (hashFloat64 r) n = some (v, m) → n ≤ m →
      e.Compute r n = (v, e) ∧ (e.Compute r n).2.Compute r n = (v, e))
    ∧ (findNearestCheckpoint e.store (hashFloat64 r) n = none → n = 0 →
      e.Compute r n = (1/2, e) ∧ (e.Compute r n).2.Compute r n = (1/2, e)) := by
  constructor
  · intro hcp hnm
    have h1 : e.Compute r n = (v, e) := by
      rw [Compute_resume hmiss hcp, show n - m = 0 by omega]
      rfl
    exact ⟨h1, by rw [h1]; exact h1⟩
  · intro hcp hn0
    have h1 : e.Compute r n = (1/2, e) := by
      rw [Compute_scratch hmiss hcp, hn0]
      rfl
    exact ⟨h1, by rw [h1]; exact h1⟩

/-- Witness for claim C10: a store holding a checkpoint exactly at the
requested step n = 2 for series r = 4 (stored text denoting 1.0, which
parses back to 1.0). -/
theorem claim_C10_witness :
    (findNearestCheckpoint
        (ComputeEngine.mk (NewL1Cache 75) [(hashFloat64 4, [(2, 1)])] 1000).store
        (hashFloat64 4) 2 = some (1, 2) → 2 ≤ 2 →
      (ComputeEngine.mk (NewL1Cache 75) [(hashFloat64 4, [(2, 1)])] 1000).Compute 4 2 =
        (1, ComputeEngine.mk (NewL1Cache 75) [(hashFloat64 4, [(2, 1)])] 1000)
      ∧ ((ComputeEngine.mk (NewL1Cache 75) [(hashFloat64 4, [(2, 1)])] 1000).Compute 4 2).2.Compute 4 2 =
        (1, ComputeEngine.mk (NewL1Cache 75) [(hashFloat64 4, [(2, 1)])] 1000))
    ∧ (findNearestCheckpoint
        (ComputeEngine.mk (NewL1Cache 75) [(hashFloat64 4, [(2, 1)])] 1000).store
        (hashFloat64 4) 2 = none → 2 = 0 →
      (ComputeEngine.mk (NewL1Cache 75) [(hashFloat64 4, [(2, 1)])] 1000).Compute 4 2 =
        (1/2, ComputeEngine.mk (NewL1Cache 75) [(hashFloat64 4, [(2, 1)])] 1000)
      ∧ ((ComputeEngine.mk (NewL1Cache 75) [(hashFloat64 4, [(2, 1)])] 1000).Compute 4 2).2.Compute 4 2 =
        (1/2, ComputeEngine.mk (NewL1Cache 75) [(hashFloat64 4, [(2, 1)])] 1000)) :=
  claim_C10 (ComputeEngine.mk (NewL1Cache 75) [(hashFloat64 4, [(2, 1)])] 1000) 4 2 1 2
    (by with_unfolding_all rfl)

/-- Claim C3 (amended): resuming from a checkpoint is equivalent to
recomputing from scratch whenever the value parsed back from the stored
checkpoint text equals the from-scratch float64 value at the checkpoint
step. (As stated, the claim fails: the 16-significant-digit text of
storeCheckpoint does not always parse back to the same float64, see the
counterexample.) -/
theorem claim_C3_amended (e : ComputeEngine) (r : ℚ) (n m : ℕ) (v : ℚ)
    (hmiss : e.l1Cache.Get (hashFloat64 r) n = none)
    (hcp : findNearestCheckpoint e.store (hashFloat64 r) n = some (v, m))
    (hmn : m ≤ n) (hv : v = logisticIter r m) :
    (e.Compute r n).1 = logisticIter r n := by
  rw [Compute_resume hmiss hcp, computeSteps_fst, hv]
  show iterFrom r (iterFrom r (1/2) m) (n - m) = iterFrom r (1/2) n
  rw [← iterFrom_add]
  congr 1
  omega

/-- Witness for the amended claim C3: a store checkpoint at step 1 for
r = 4 whose text denotes 1.0; 1.0 parses back bit-identically, and the
resumed Compute(4, 2) equals the from-scratch value. -/
theorem claim_C3_amended_witness :
    ((ComputeEngine.mk (NewL1Cache 75) [(hashFloat64 4, [(1, 1)])] 1000).Compute 4 2).1 =
      logisticIter 4 2 :=
  claim_C3_amended (ComputeEngine.mk (NewL1Cache 75) [(hashFloat64 4, [(1, 1)])] 1000) 4 2 1 1
    (by with_unfolding_all rfl) (by with_unfolding_all rfl) (by omega)
    (by with_unfolding_all rfl)

/-- Counterexample to claim C3 as stated: for r = 57/16 = 3.5625, the
from-scratch run Compute(r, 1000) persists a checkpoint at step 1000; a
fresh engine whose store holds exactly that checkpoint returns, for
Compute(r, 1001), a value different from the from-scratch Compute(r, 1001):
the 16-digit decimal text of the step-1000 value parses back to a
neighbouring float64, and one further step keeps the two apart. -/
theorem claim_C3_counterexample :
    ((ComputeEngine.mk (NewL1Cache 75) (NewComputeEngine.Compute (57/16) 1000).2.store
        1000).Compute (57/16) 1001).1
      ≠ (NewComputeEngine.Compute (57/16) 1001).1 := by
  rw [Compute_scratch_store_at_mod (57/16)]
  have hmiss : (ComputeEngine.mk (NewL1Cache 75)
      [(hashFloat64 (57/16), [(1000, roundDec16 (logisticIter (57/16) 1000))])]
      1000).l1Cache.Get (hashFloat64 (57/16)) 1001 = none := rfl
  have hcp : findNearestCheckpoint (ComputeEngine.mk (NewL1Cache 75)
      [(hashFloat64 (57/16), [(1000, roundDec16 (logisticIter (57/16) 1000))])] 1000).store
      (hashFloat64 (57/16)) 1001 =
      some (fl (roundDec16 (logisticIter (57/16) 1000)), 1000) := by
    show findNearestCheckpoint
      [(hashFloat64 (57/16), [(1000, roundDec16 (logisticIter (57/16) 1000))])]
      (hashFloat64 (57/16)) 1001 = _
    simp [findNearestCheckpoint, lookupKey, bestAtOrBelow]
  rw [Compute_resume hmiss hcp, computeSteps_fst, Compute_fresh_value]
  rw [logisticIter_c3_eval]
  have hRHS : logisticIter (57/16) 1001 =
      fstep (57/16) (mkRat 8867266824907491 18014398509481984) := by
    have hs : logisticIter (57/16) 1001 = fstep (57/16) (logisticIter (57/16) 1000) :=
      iterFrom_succ (57/16) (1/2) 1000
    rw [hs, logisticIter_c3_eval]
  rw [hRHS]
  have e1 : fl (roundDec16 (mkRat 8867266824907491 18014398509481984)) =
      mkRat 2216816706226873 4503599627370496 := by with_unfolding_all rfl
  rw [e1]
  have e2 : iterFrom (57/16) (mkRat 2216816706226873 4503599627370496) (1001 - 1000) =
      mkRat 4010050336747561 4503599627370496 := by with_unfolding_all rfl
  rw [e2]
  have e3 : fstep (57/16) (mkRat 8867266824907491 18014398509481984) =
      mkRat 8020100673495121 9007199254740992 := by with_unfolding_all rfl
  rw [e3]
  intro h
  have hnum := congrArg Rat.num h
  have d1 : (mkRat 4010050336747561 4503599627370496).num = 4010050336747561 := by
    with_unfolding_all rfl
  have d2 : (mkRat 8020100673495121 9007199254740992).num = 8020100673495121 := by
    with_unfolding_all rfl
  rw [d1, d2] at hnum
  exact absurd hnum (by decide)

/-- Claim C5 (amended): after a single Compute on a fresh engine (empty
cache, empty store), every (j, x) pair held in L1 for the series of r does
satisfy x = the j-fold iterate from 0.5. (As stated over all reachable
states the claim fails: PreheatCache copies foreign store values into L1
unverified, see the counterexample.) -/
theorem claim_C5_amended (r : ℚ) (n j : ℕ) (x : ℚ)
    (h : (NewComputeEngine.Compute r n).2.l1Cache.Get (hashFloat64 r) j = some x) :
    x = logisticIter r j := by
  rw [Compute_scratch (NewComputeEngine_Get _ n) (NewComputeEngine_findNearest _ n),
    computeSteps_cache] at h
  by_cases hj : 0 < j ∧ j ≤ 0 + n
  · rw [if_pos hj] at h
    have hx := Option.some.inj h
    rw [← hx]
    rfl
  · rw [if_neg hj] at h
    rw [NewComputeEngine_Get] at h
    exact Option.noConfusion h

/-- Witness for the amended claim C5: after Compute(4, 2) on a fresh
engine, the cached value at step 1 is 1.0 = logisticIter 4 1. -/
theorem claim_C5_amended_witness :
    (NewComputeEngine.Compute 4 2).2.l1Cache.Get (hashFloat64 4) 1 = some 1 ∧
      (1 : ℚ) = logisticIter 4 1 :=
  ⟨by with_unfolding_all rfl,
   claim_C5_amended 4 2 1 1 (by with_unfolding_all rfl)⟩

/-- Counterexample to claim C5 as stated: PreheatCache against a store
holding a foreign value (step 1 of series r = 4 recorded as 7.0, as written
by another run or corrupted) seeds the L1 cache with a pair that violates
the recurrence invariant: the cache then holds 7.0 at step 1, while the
true step-1 value is 1.0. -/
theorem claim_C5_counterexample :
    ((ComputeEngine.mk (NewL1Cache 75) [(hashFloat64 4, [(1, 7)])] 1000).PreheatCache).l1Cache.Get
        (hashFloat64 4) 1 = some 7
    ∧ logisticIter 4 1 ≠ 7 := by
  constructor
  · with_unfolding_all rfl
  · intro h
    have h1 : logisticIter 4 1 = 1 := by with_unfolding_all rfl
    rw [h1] at h
    exact absurd h (by norm_num)

/-- Claim C7: on an L1 miss with resume point (v, m) returned by the
checkpoint lookup (v = 0.5, m = 0 when none exists) and m below n, Compute
writes the computed value of every step j with m < j and j at most n into
the L1 cache, and upserts into the store exactly those computed steps that
are multiples of the checkpoint interval, leaving every other store entry
of the series unchanged. -/
theorem claim_C7 (e : ComputeEngine) (r : ℚ) (n m j : ℕ) (v : ℚ)
    ( _hmod : 0 < e.checkpointMod)
    (hmiss : e.l1Cache.Get (hashFloat64 r) n = none)
    (hres : findNearestCheckpoint e.store (hashFloat64 r) n = some (v, m) ∨
      (findNearestCheckpoint e.store (hashFloat64 r) n = none ∧ v = 1/2 ∧ m = 0))
    (hmn : m < n) :
    (m < j → j ≤ n →
      ((e.Compute r n).2.l1Cache.Get (hashFloat64 r) j = some (iterFrom r v (j - m))
       ∧ tblGet (e.Compute r n).2.store (hashFloat64 r) j =
           (if j % e.checkpointMod = 0 then some (roundDec16 (iterFrom r v (j - m)))
            else tblGet e.store (hashFloat64 r) j)))
    ∧ (¬ (m < j ∧ j ≤ n) →
        tblGet (e.Compute r n).2.store (hashFloat64 r) j = tblGet e.store (hashFloat64 r) j) := by
  have hcompute : e.Compute r n = computeSteps (n - m) e r (hashFloat64 r) v m := by
    rcases hres with hsome | ⟨hnone, hv, hm⟩
    · exact Compute_resume hmiss hsome
    · rw [Compute_scratch hmiss hnone, hv, hm, Nat.sub_zero]
  constructor
  · intro hj hjn
    constructor
    · rw [hcompute, computeSteps_cache]
      rw [if_pos ⟨hj, by omega⟩]
    · rw [hcompute, computeSteps_store_same]
      by_cases hc : j % e.checkpointMod = 0
      · rw [if_pos ⟨hj, by omega, hc⟩, if_pos hc]
      · rw [if_neg (by omega : ¬ (m < j ∧ j ≤ m + (n - m) ∧ j % e.checkpointMod = 0)),
          if_neg hc]
  · intro hnot
    rw [hcompute, computeSteps_store_same]
    rw [if_neg (by omega : ¬ (m < j ∧ j ≤ m + (n - m) ∧ j % e.checkpointMod = 0))]

/-- Witness for claim C7 on a fresh engine: Compute(4, 2) from scratch
(resume point (0.5, 0)), inspected at step j = 1. -/
theorem claim_C7_witness :
    (0 < 1 → 1 ≤ 2 →
      ((NewComputeEngine.Compute 4 2).2.l1Cache.Get (hashFloat64 4) 1 =
          some (iterFrom 4 (1/2) (1 - 0))
       ∧ tblGet (NewComputeEngine.Compute 4 2).2.store (hashFloat64 4) 1 =
           (if 1 % NewComputeEngine.checkpointMod = 0 then
              some (roundDec16 (iterFrom 4 (1/2) (1 - 0)))
            else tblGet NewComputeEngine.store (hashFloat64 4) 1)))
    ∧ (¬ (0 < 1 ∧ 1 ≤ 2) →
        tblGet (NewComputeEngine.Compute 4 2).2.store (hashFloat64 4) 1 =
          tblGet NewComputeEngine.store (hashFloat64 4) 1) :=
  claim_C7 NewComputeEngine 4 2 0 1 (1/2) ((by norm_num : (0:ℕ) < 1000))
    (NewComputeEngine_Get _ 2) (Or.inr ⟨NewComputeEngine_findNearest _ 2, rfl, rfl⟩)
    (by omega)

/-! ## Rounding accuracy (claim C4) -/

/-- The round-to-nearest integer of num/den differs from the rational by at
most one half. -/
theorem roundEvenInt_close (q : ℚ) :
    |((roundEvenInt q.num (q.den : ℤ) : ℤ) : ℚ) - q| ≤ 1/2 := by
  have hd : (0 : ℤ) < (q.den : ℤ) := by exact_mod_cast q.pos
  have hdQ : (0 : ℚ) < ((q.den : ℤ) : ℚ) := by exact_mod_cast hd
  have hdq : ((q.den : ℤ) : ℚ) ≠ 0 := ne_of_gt hdQ
  have hqd : q * ((q.den : ℤ) : ℚ) = (q.num : ℚ) := by
    have h0 := Rat.num_div_den q
    have h1 := (div_eq_iff (show ((q.den : ℕ) : ℚ) ≠ 0 from
      Nat.cast_ne_zero.mpr q.den_nz)).mp h0
    push_cast
    linarith [h1]
  have hf : Int.fdiv q.num (q.den : ℤ) = q.num / (q.den : ℤ) :=
    Int.fdiv_eq_ediv q.num (le_of_lt hd)
  have hdecomp : (q.den : ℤ) * (q.num / (q.den : ℤ)) + q.num % (q.den : ℤ) = q.num :=
    Int.ediv_add_emod q.num (q.den : ℤ)
  have hrr0 : (0 : ℤ) ≤ q.num % (q.den : ℤ) := Int.emod_nonneg q.num (ne_of_gt hd)
  have hrrd : q.num % (q.den : ℤ) < (q.den : ℤ) := Int.emod_lt_of_pos q.num hd
  have hsub : q.num - q.num / (q.den : ℤ) * (q.den : ℤ) = q.num % (q.den : ℤ) := by
    linarith [hdecomp, mul_comm (q.den : ℤ) (q.num / (q.den : ℤ))]
  have key : ∀ z zd : ℤ, (z : ℚ) * ((q.den : ℤ) : ℚ) = (zd : ℚ) →
      2 * (zd - q.num) ≤ (q.den : ℤ) →
      2 * (q.num - zd) ≤ (q.den : ℤ) → |((z : ℤ) : ℚ) - q| ≤ 1/2 := by
    intro z zd hz h1 h2
    rw [abs_le]
    have hc1 : 2 * ((zd : ℚ) - (q.num : ℚ)) ≤ ((q.den : ℤ) : ℚ) := by
      exact_mod_cast h1
    have hc2 : 2 * ((q.num : ℚ) - (zd : ℚ)) ≤ ((q.den : ℤ) : ℚ) := by
      exact_mod_cast h2
    constructor
    · have hle : (q - (z : ℚ)) * ((q.den : ℤ) : ℚ) ≤ 1/2 * ((q.den : ℤ) : ℚ) := by
        have heq : (q - (z : ℚ)) * ((q.den : ℤ) : ℚ) = (q.num : ℚ) - (zd : ℚ) := by
          rw [sub_mul, hqd, hz]
        rw [heq]
        linarith
      have := le_of_mul_le_mul_right hle hdQ
      linarith
    · have hle : ((z : ℚ) - q) * ((q.den : ℤ) : ℚ) ≤ 1/2 * ((q.den : ℤ) : ℚ) := by
        have heq : ((z : ℚ) - q) * ((q.den : ℤ) : ℚ) = (zd : ℚ) - (q.num : ℚ) := by
          rw [sub_mul, hqd, hz]
        rw [heq]
        linarith
      exact le_of_mul_le_mul_right hle hdQ
  simp only [roundEvenInt]
  rw [hf, hsub]
  by_cases h1 : 2 * (q.num % (q.den : ℤ)) < (q.den : ℤ)
  · rw [if_pos h1]
    exact key _ ((q.den : ℤ) * (q.num / (q.den : ℤ)))
      (by push_cast; ring) (by omega) (by omega)
  · rw [if_neg h1]
    by_cases h2 : (q.den : ℤ) < 2 * (q.num % (q.den : ℤ))
    · rw [if_pos h2]
      exact key _ ((q.den : ℤ) * (q.num / (q.den : ℤ)) + (q.den : ℤ))
        (by push_cast; ring) (by omega) (by omega)
    · rw [if_neg h2]
      by_cases h3 : q.num / (q.den : ℤ) % 2 = 0
      · rw [if_pos h3]
        exact key _ ((q.den : ℤ) * (q.num / (q.den : ℤ)))
          (by push_cast; ring) (by omega) (by omega)
      · rw [if_neg h3]
        exact key _ ((q.den : ℤ) * (q.num / (q.den : ℤ)) + (q.den : ℤ))
          (by push_cast; ring) (by omega) (by omega)

theorem zpow10_pos (k : ℤ) : 0 < zpow10 k := by
  unfold zpow10
  by_cases hk : 0 ≤ k
  · rw [if_pos hk]
    exact_mod_cast pow_pos (by norm_num : (0:ℕ) < 10) k.toNat
  · rw [if_neg hk]
    apply inv_pos.mpr
    exact_mod_cast pow_pos (by norm_num : (0:ℕ) < 10) (-k).toNat

theorem zpow10_mul_neg (k : ℤ) : zpow10 k * zpow10 (-k) = 1 := by
  rcases lt_trichotomy k 0 with hk | hk | hk
  · have h1 : ¬ 0 ≤ k := by omega
    have h2 : 0 ≤ -k := by omega
    unfold zpow10
    rw [if_neg h1, if_pos h2]
    exact inv_mul_cancel₀
      (by exact_mod_cast pow_ne_zero _ (by norm_num : (10:ℕ) ≠ 0))
  · subst hk
    simp [zpow10]
  · have h1 : 0 ≤ k := le_of_lt hk
    have h2 : ¬ 0 ≤ -k := by omega
    unfold zpow10
    rw [if_pos h1, if_neg h2]
    have h3 : (- -k).toNat = k.toNat := by rw [neg_neg]
    rw [h3]
    exact mul_inv_cancel₀
      (by exact_mod_cast pow_ne_zero _ (by norm_num : (10:ℕ) ≠ 0))

/-- Claim C4 (amended): the text produced by storeCheckpoint denotes the
decimal roundDec16 x, which determines the value only to within half a unit
in the 16th significant decimal digit: |roundDec16 x - x| is at most
(1/2) * 10^(e - 15), where e is the decimal exponent of x; and parsing a
stored checkpoint back through findNearestCheckpoint yields exactly
fl (roundDec16 x), the float64 nearest that denoted decimal. The round
trip is therefore NOT bit-identical for every float64 (see the
counterexample): 16 significant digits are one short of the 17 needed for
a guaranteed binary64 round-trip, so resumed computations are not
guaranteed to match in-memory continuation bit for bit. -/
theorem claim_C4_amended :
    (∀ x : ℚ, |roundDec16 x - x| ≤ 1/2 * zpow10 (decExp x - 15)) ∧
    (∀ (x : ℚ) (key step : ℕ),
      findNearestCheckpoint (storeCheckpoint [] key step x) key step =
        some (fl (roundDec16 x), step)) := by
  constructor
  · intro x
    by_cases hx : x = 0
    · subst hx
      rw [show roundDec16 0 = 0 from by unfold roundDec16; rw [if_pos rfl]]
      simp only [sub_zero, abs_zero]
      have := zpow10_pos (decExp 0 - 15)
      linarith
    · simp only [roundDec16]
      rw [if_neg hx]
      have hx2 : x = (x * zpow10 (15 - decExp x)) * zpow10 (decExp x - 15) := by
        rw [mul_assoc, show decExp x - 15 = -(15 - decExp x) from by ring,
          zpow10_mul_neg, mul_one]
      have hsplit : ((roundEvenInt (x * zpow10 (15 - decExp x)).num
            (((x * zpow10 (15 - decExp x)).den : ℕ) : ℤ) : ℤ) : ℚ) * zpow10 (decExp x - 15) - x
          = (((roundEvenInt (x * zpow10 (15 - decExp x)).num
            (((x * zpow10 (15 - decExp x)).den : ℕ) : ℤ) : ℤ) : ℚ)
              - x * zpow10 (15 - decExp x)) * zpow10 (decExp x - 15) := by
        rw [sub_mul, ← hx2]
      rw [hsplit, abs_mul, abs_of_pos (zpow10_pos _)]
      exact mul_le_mul_of_nonneg_right (roundEvenInt_close _) (le_of_lt (zpow10_pos _))
  · intro x key step
    show findNearestCheckpoint ((key, [(step, roundDec16 x)]) :: []) key step = _
    unfold findNearestCheckpoint
    rw [show lookupKey [(key, [(step, roundDec16 x)])] key =
        some [(step, roundDec16 x)] from by
      unfold lookupKey
      rw [if_pos rfl]]
    show (match bestAtOrBelow [(step, roundDec16 x)] step with
      | none => (none : Option (ℚ × ℕ))
      | some p => some (fl p.2, p.1)) = some (fl (roundDec16 x), step)
    rw [show bestAtOrBelow [(step, roundDec16 x)] step =
        some (step, roundDec16 x) from by
      unfold bestAtOrBelow
      rw [if_pos (le_refl step)]
      rfl]

/-- Counterexample to claim C4 as stated: x = 1 + 2^(-52) (the float64
successor of 1.0, a value fl fixes) serializes through storeCheckpoint to
the 16-digit decimal 1.000000000000000e+00, which findNearestCheckpoint
parses back to 1.0, not to x: the round-trip is not bit-identical. -/
theorem claim_C4_counterexample :
    fl (mkRat 4503599627370497 4503599627370496) = mkRat 4503599627370497 4503599627370496
    ∧ findNearestCheckpoint
        (storeCheckpoint [] 17 5 (mkRat 4503599627370497 4503599627370496)) 17 5 =
        some (1, 5)
    ∧ (1 : ℚ) ≠ mkRat 4503599627370497 4503599627370496 := by
  refine ⟨by with_unfolding_all rfl, by with_unfolding_all rfl, ?_⟩
  intro h
  have hnum := congrArg Rat.num h
  have d1 : (1 : ℚ).num = 1 := rfl
  have d2 : (mkRat 4503599627370497 4503599627370496).num = 4503599627370497 := by
    with_unfolding_all rfl
  rw [d1, d2] at hnum
  exact absurd hnum (by decide)

/-! ## Pod partitioner (claim C6) -/

/-- Counterexample to claim C6 as stated: totalPods = 2 to the 32 satisfies
totalPods at least 1, but uint32(totalPods) is zero, so the source divides
by zero and panics instead of returning an index; the model returns none,
so no index below totalPods is returned. -/
theorem claim_C6_counterexample :
    1 ≤ 2^32 ∧ GetPodForR 0 (2^32) = none
    ∧ ¬ ∃ i, GetPodForR 0 (2^32) = some i ∧ i < 2^32 := by
  refine ⟨by norm_num, by with_unfolding_all rfl, ?_⟩
  rintro ⟨i, hi, _⟩
  rw [show GetPodForR 0 (2^32) = none from by with_unfolding_all rfl] at hi
  exact Option.noConfusion hi

/-- Claim C6 (amended): for every series key and every totalPods at least 1
whose uint32 truncation is nonzero, GetPodForR returns the 32-bit FNV-1a
hash of the key bytes reduced modulo uint32(totalPods), an index in
[0, totalPods); in particular, for totalPods below 2 to the 32 the modulus
is totalPods itself, exactly as the claim states. At totalPods an exact
multiple of 2 to the 32 the source panics on division by zero instead. -/
theorem claim_C6_amended (key totalPods : ℕ) ( _h1 : 1 ≤ totalPods)
    (h2 : totalPods % 2^32 ≠ 0) :
    GetPodForR key totalPods = some (fnv1a32 (uint64LEBytes key) % (totalPods % 2^32))
    ∧ fnv1a32 (uint64LEBytes key) % (totalPods % 2^32) < totalPods
    ∧ (totalPods < 2^32 →
        GetPodForR key totalPods = some (fnv1a32 (uint64LEBytes key) % totalPods)) := by
  have hm : 0 < totalPods % 2^32 := Nat.pos_of_ne_zero h2
  refine ⟨?_, ?_, ?_⟩
  · unfold GetPodForR
    rw [if_neg h2]
  · exact lt_of_lt_of_le (Nat.mod_lt _ hm) (Nat.mod_le _ _)
  · intro hlt
    unfold GetPodForR
    rw [if_neg h2, Nat.mod_eq_of_lt hlt]

/-- Witness for the amended claim C6 at key 0, totalPods 3. -/
theorem claim_C6_amended_witness :
    GetPodForR 0 3 = some (fnv1a32 (uint64LEBytes 0) % (3 % 2^32))
    ∧ fnv1a32 (uint64LEBytes 0) % (3 % 2^32) < 3
    ∧ (3 < 2^32 → GetPodForR 0 3 = some (fnv1a32 (uint64LEBytes 0) % 3)) :=
  claim_C6_amended 0 3 (by norm_num) (by norm_num)

/-! ## Pod identifier parsing (claim C9) -/

/-- ASCII facts about decimal digit characters. -/
theorem digit_char_facts (d : ℕ) (hd : d < 10) :
    (Char.ofNat (48 + d)).toNat = 48 + d ∧ digitCh (Char.ofNat (48 + d)) = true ∧
    digitValCh (Char.ofNat (48 + d)) = d ∧ isWsCh (Char.ofNat (48 + d)) = false := by
  interval_cases d <;> exact ⟨rfl, by decide, by decide, by decide⟩

/-- The literal pod- strips off the front of a matching character list. -/
theorem stripPre_podPre (xs : List Char) :
    stripPre podPre ('p' :: 'o' :: 'd' :: '-' :: xs) = some xs := rfl

/-- Greedy digit parsing of a digit-character block followed by a
non-digit remainder folds up the digit values. -/
theorem parseDigitsAcc_append (ds : List ℕ) (rest : List Char) (acc : ℕ)
    (hds : ∀ d ∈ ds, d < 10)
    (hrest : ∀ c, rest.head? = some c → digitCh c = false) :
    parseDigitsAcc (ds.map (fun d => Char.ofNat (48 + d)) ++ rest) acc =
      ds.foldl (fun a d => a * 10 + d) acc := by
  induction ds generalizing acc with
  | nil =>
    simp only [List.map_nil, List.nil_append, List.foldl_nil]
    cases rest with
    | nil => rfl
    | cons c cs =>
      show (if digitCh c then parseDigitsAcc cs (acc * 10 + digitValCh c) else acc) = acc
      rw [hrest c rfl]
      simp
  | cons d ds ih =>
    have hd := hds d (List.mem_cons_self d ds)
    obtain ⟨_, hdig, hval, _⟩ := digit_char_facts d hd
    show (if digitCh (Char.ofNat (48 + d)) then
        parseDigitsAcc (ds.map (fun d => Char.ofNat (48 + d)) ++ rest)
          (acc * 10 + digitValCh (Char.ofNat (48 + d)))
      else acc) = _
    rw [hdig, if_pos rfl, hval, ih (acc * 10 + d) (fun x hx => hds x (List.mem_cons_of_mem d hx))]
    rfl

/-- Folding digit values most-significant first over a reversed
little-endian digit list recovers the number. -/
theorem foldl_reverse_ofDigits (L : List ℕ) (acc : ℕ) :
    (L.reverse).foldl (fun a d => a * 10 + d) acc =
      acc * 10 ^ L.length + Nat.ofDigits 10 L := by
  induction L generalizing acc with
  | nil => simp [Nat.ofDigits_nil]
  | cons d L ih =>
    rw [List.reverse_cons, List.foldl_append, ih]
    simp only [List.foldl_cons, List.foldl_nil, Nat.ofDigits_cons, List.length_cons]
    ring

/-- The digit-value list behind digitChars: a nonempty list of digits below
10 that folds up to i. -/
theorem digitChars_shape (i : ℕ) : ∃ d ds, d < 10 ∧ (∀ x ∈ ds, x < 10) ∧
    digitChars i = (d :: ds).map (fun x => Char.ofNat (48 + x)) ∧
    (d :: ds).foldl (fun a x => a * 10 + x) 0 = i := by
  by_cases hi : i = 0
  · subst hi
    exact ⟨0, [], by norm_num, by simp, rfl, rfl⟩
  · have hne : Nat.digits 10 i ≠ [] := Nat.digits_ne_nil_iff_ne_zero.mpr hi
    have hrevne : (Nat.digits 10 i).reverse ≠ [] := by
      simpa using hne
    obtain ⟨d, ds, hcons⟩ := List.exists_cons_of_ne_nil hrevne
    have hmem : ∀ x ∈ d :: ds, x < 10 := by
      intro x hx
      rw [← hcons] at hx
      exact Nat.digits_lt_base (by norm_num) (List.mem_reverse.mp hx)
    refine ⟨d, ds, hmem d (List.mem_cons_self d ds),
      fun x hx => hmem x (List.mem_cons_of_mem d hx), ?_, ?_⟩
    · unfold digitChars
      rw [if_neg hi, hcons]
    · rw [← hcons, foldl_reverse_ofDigits]
      simp [Nat.ofDigits_digits]

/-- Claim C9 (amended): ParsePodID returns the numeric suffix i for every
well-formed identifier pod-i with i within int64 range, and more generally
returns the leading digit run after pod- even when junk follows it
(e.g. pod-7x parses to 7, not 0); identifiers that do not start with the
literal pod- parse to 0. The original claim that all malformed identifiers
parse to 0 is refuted by the counterexample. -/
theorem claim_C9_amended :
    (∀ (i : ℕ) (rest : List Char), i < 2^63 →
      (∀ c, rest.head? = some c → digitCh c = false) →
      ParsePodID (String.mk ('p' :: 'o' :: 'd' :: '-' :: (digitChars i ++ rest))) = i)
    ∧ (∀ s : String, stripPre podPre s.toList = none → ParsePodID s = 0) := by
  constructor
  · intro i rest hi hrest
    obtain ⟨d, ds, hd10, hds10, hshape, hfold⟩ := digitChars_shape i
    obtain ⟨htoNat, hdig, _, hws⟩ := digit_char_facts d hd10
    have hlist : digitChars i ++ rest =
        Char.ofNat (48 + d) :: (ds.map (fun x => Char.ofNat (48 + x)) ++ rest) := by
      rw [hshape]
      rfl
    have htl : (String.mk ('p' :: 'o' :: 'd' :: '-' :: (digitChars i ++ rest))).toList =
        'p' :: 'o' :: 'd' :: '-' :: (digitChars i ++ rest) := rfl
    have hparse : parseDigitsAcc
        (Char.ofNat (48 + d) :: (ds.map (fun x => Char.ofNat (48 + x)) ++ rest)) 0 = i := by
      have := parseDigitsAcc_append (d :: ds) rest 0
        (fun x hx => by
          cases hx with
          | head => exact hd10
          | tail _ h => exact hds10 _ h) hrest
      rw [show (d :: ds).map (fun x => Char.ofNat (48 + x)) ++ rest =
          Char.ofNat (48 + d) :: (ds.map (fun x => Char.ofNat (48 + x)) ++ rest) from rfl] at this
      rw [this, hfold]
    unfold ParsePodID
    rw [htl, stripPre_podPre, hlist]
    show (match List.dropWhile isWsCh
        (Char.ofNat (48 + d) :: (ds.map (fun x => Char.ofNat (48 + x)) ++ rest)) with
      | [] => (0 : ℤ)
      | c :: cs =>
        if c.toNat = 45 then
          match cs with
          | [] => 0
          | e :: _ =>
            if digitCh e then
              (if parseDigitsAcc cs 0 ≤ 2^63 then -(parseDigitsAcc cs 0 : ℤ) else 0)
            else 0
        else if c.toNat = 43 then
          match cs with
          | [] => 0
          | e :: _ =>
            if digitCh e then
              (if parseDigitsAcc cs 0 < 2^63 then (parseDigitsAcc cs 0 : ℤ) else 0)
            else 0
        else if digitCh c then
          (if parseDigitsAcc (c :: cs) 0 < 2^63 then (parseDigitsAcc (c :: cs) 0 : ℤ) else 0)
        else 0) = (i : ℤ)
    rw [show List.dropWhile isWsCh
        (Char.ofNat (48 + d) :: (ds.map (fun x => Char.ofNat (48 + x)) ++ rest)) =
        Char.ofNat (48 + d) :: (ds.map (fun x => Char.ofNat (48 + x)) ++ rest) from by
      rw [List.dropWhile_cons, hws]
      simp]
    show (if (Char.ofNat (48 + d)).toNat = 45 then _ else _) = (i : ℤ)
    rw [if_neg (show ¬ (Char.ofNat (48 + d)).toNat = 45 from by rw [htoNat]; omega),
      if_neg (show ¬ (Char.ofNat (48 + d)).toNat = 43 from by rw [htoNat]; omega),
      if_pos hdig, hparse, if_pos hi]
  · intro s h
    unfold ParsePodID
    rw [h]

/-- Witness for the amended claim C9: pod-35x parses to 35 (digit run with
junk suffix) and a string without the pod- prefix parses to 0. -/
theorem claim_C9_amended_witness :
    ParsePodID (String.mk ('p' :: 'o' :: 'd' :: '-' :: (digitChars 35 ++ ['x']))) = 35
    ∧ ParsePodID "node-4" = 0 :=
  ⟨claim_C9_amended.1 35 ['x'] (by norm_num)
      (fun c hc => by cases hc; decide),
   claim_C9_amended.2 "node-4" (by with_unfolding_all rfl)⟩

/-- Counterexample to claim C9 as stated: pod-7x is not of the well-formed
shape pod-i, yet ParsePodID returns 7, not 0: Sscanf consumes the digit run
greedily and reports a successful scan regardless of what follows. -/
theorem claim_C9_counterexample :
    ParsePodID "pod-7x" = 7 ∧ (7 : ℤ) ≠ 0 :=
  ⟨by with_unfolding_all rfl, by decide⟩

/-! ## The ring-buffer cache invariant (claim C2) -/


theorem lookupKey_eq_none_iff {α : Type} (l : List (ℕ × α)) (k : ℕ) :
    lookupKey l k = none ↔ k ∉ l.map Prod.fst := by
  induction l with
  | nil => simp [lookupKey]
  | cons p ps ih =>
    by_cases h : p.1 = k
    · subst h
      simp [lookupKey]
    · simp only [lookupKey, if_neg h, List.map_cons, List.mem_cons, ih]
      constructor
      · intro hk hor
        rcases hor with hkp | hm
        · exact h hkp.symm
        · exact hk hm
      · intro hk hm
        exact hk (Or.inr hm)

theorem updSeries_map_fst (l : List (ℕ × List (ℕ × ℚ))) (k n : ℕ) (v : ℚ) :
    (updSeries l k n v).map Prod.fst = l.map Prod.fst := by
  induction l with
  | nil => rfl
  | cons p ps ih =>
    by_cases h : p.1 = k
    · simp [updSeries, h]
    · simp [updSeries, h, ih]

theorem eraseKey_append {α : Type} (l₁ l₂ : List (ℕ × α)) (x : ℕ) :
    eraseKey (l₁ ++ l₂) x = eraseKey l₁ x ++ eraseKey l₂ x := by
  induction l₁ with
  | nil => rfl
  | cons p ps ih =>
    by_cases h : p.1 = x <;> simp [eraseKey, h, ih]

theorem eraseKey_of_not_mem {α : Type} (l : List (ℕ × α)) (x : ℕ)
    (h : x ∉ l.map Prod.fst) : eraseKey l x = l := by
  induction l with
  | nil => rfl
  | cons p ps ih =>
    simp only [List.map_cons, List.mem_cons, not_or] at h
    have hp : ¬ p.1 = x := fun he => h.1 he.symm
    simp [eraseKey, hp, ih h.2]

theorem rot_set (l : List ℕ) (h k : ℕ) (hh : h < l.length) :
    (l.set h k).drop ((h + 1) % l.length) ++ (l.set h k).take ((h + 1) % l.length)
      = (l.drop h ++ l.take h).tail ++ [k] := by
  have hset : l.set h k = l.take h ++ k :: l.drop (h + 1) :=
    List.set_eq_take_cons_drop k hh
  have hlt : (l.take h).length = h := by
    rw [List.length_take]
    omega
  obtain ⟨a, t, hdrop⟩ : ∃ a t, l.drop h = a :: t := by
    cases hd : l.drop h with
    | nil =>
      exfalso
      have := List.drop_eq_nil_iff.mp hd
      omega
    | cons a t => exact ⟨a, t, rfl⟩
  have hd1 : l.drop (h + 1) = t := by
    have hdd : List.drop 1 (List.drop h l) = List.drop (h + 1) l := by
      rw [List.drop_drop]
    rw [← hdd, hdrop]
    rfl
  rcases Nat.lt_or_ge (h + 1) l.length with hcase | hcase
  · rw [Nat.mod_eq_of_lt hcase, hset]
    have d1 : (l.take h ++ k :: l.drop (h + 1)).drop (h + 1) = l.drop (h + 1) := by
      rw [List.drop_append_eq_append_drop, hlt,
        List.drop_eq_nil_of_le (by rw [hlt]; omega)]
      simp
    have t1 : (l.take h ++ k :: l.drop (h + 1)).take (h + 1) = l.take h ++ [k] := by
      rw [List.take_append_eq_append_take, hlt,
        List.take_of_length_le (by rw [hlt]; omega)]
      simp
    rw [d1, t1, hd1, hdrop, List.cons_append, List.tail_cons, List.append_assoc]
  · have he : h + 1 = l.length := Nat.le_antisymm hh hcase
    rw [show (h + 1) % l.length = 0 from by rw [← he]; exact Nat.mod_self _]
    simp only [List.drop_zero, List.take_zero, List.append_nil]
    rw [hset, hdrop, List.cons_append, List.tail_cons,
      show l.drop (h + 1) = [] from by rw [he, List.drop_length]]
    have ht : t = [] := by
      have h2 : l.drop (h + 1) = t := hd1
      rw [he, List.drop_length] at h2
      exact h2.symm
    rw [ht]
    simp

theorem ringAt_length (c : L1Cache) : (ringAt c).length = c.keys.length := by
  simp only [ringAt, List.length_append, List.length_drop, List.length_take]
  omega

theorem keys_getD_head (c : L1Cache) (hh : c.head < c.keys.length) :
    c.keys.getD c.head 0 = (ringAt c).getD 0 0 := by
  unfold ringAt
  have hr := List.drop_eq_getElem_cons hh
  rw [hr, List.cons_append, List.getD_eq_getElem?_getD, List.getD_eq_getElem?_getD,
    List.getElem?_eq_getElem hh, List.getElem?_cons_zero, Option.getD_some]

theorem Set_existing (c : L1Cache) (k n : ℕ) (v : ℚ) (s0 : List (ℕ × ℚ))
    (h : lookupKey c.entries k = some s0) :
    (c.Set k n v).entries = updSeries c.entries k n v ∧ (c.Set k n v).keys = c.keys ∧
    (c.Set k n v).head = c.head ∧ (c.Set k n v).size = c.size := by
  unfold L1Cache.Set
  rw [h]
  exact ⟨rfl, rfl, rfl, rfl⟩

theorem Set_fresh (c : L1Cache) (k n : ℕ) (v : ℚ)
    (h : lookupKey c.entries k = none) :
    (c.Set k n v).entries = (k, [(n, v)]) ::
        (if c.size ≤ c.entries.length then eraseKey c.entries (c.keys.getD c.head 0)
         else c.entries) ∧
    (c.Set k n v).keys = c.keys.set c.head k ∧
    (c.Set k n v).head = (c.head + 1) % c.size ∧ (c.Set k n v).size = c.size := by
  unfold L1Cache.Set
  rw [h]
  exact ⟨rfl, rfl, rfl, rfl⟩

theorem ringAt_Set_fresh (c : L1Cache) (k n : ℕ) (v : ℚ)
    (h : lookupKey c.entries k = none)
    (hkl : c.keys.length = c.size) (hh : c.head < c.size) :
    ringAt (c.Set k n v) = (ringAt c).tail ++ [k] := by
  obtain ⟨-, hk2, hh2, -⟩ := Set_fresh c k n v h
  unfold ringAt
  rw [hk2, hh2, show c.size = c.keys.length from hkl.symm]
  exact rot_set c.keys c.head k (by omega)

theorem Set_fresh_full_entries (c : L1Cache) (k n : ℕ) (v : ℚ) (hc : CacheInv c)
    (hfull : c.size ≤ c.entries.length) (hlk : lookupKey c.entries k = none) :
    ∃ e1 old,
      (c.Set k n v).entries = (k, [(n, v)]) :: e1 ∧
      e1.map Prod.fst = (entriesKeys c).dropLast ∧
      entriesKeys c = (entriesKeys c).dropLast ++ [old] ∧
      old ∉ (entriesKeys c).dropLast ∧
      c.keys.getD c.head 0 = old := by
  obtain ⟨hkl, hhd, hlen, hring, hnd⟩ := hc
  have hlen_eq : c.entries.length = c.size := Nat.le_antisymm hlen hfull
  have hh' : c.head < c.keys.length := by omega
  have hrlen : (ringAt c).length = c.size := by rw [ringAt_length, hkl]
  obtain ⟨old, tl, hcons⟩ : ∃ a t, ringAt c = a :: t := by
    cases hr : ringAt c with
    | nil =>
      exfalso
      rw [hr] at hrlen
      simp at hrlen
      omega
    | cons a t => exact ⟨a, t, rfl⟩
  have hek : entriesKeys c = tl.reverse ++ [old] := by
    rw [hring, hlen_eq, Nat.sub_self, List.drop_zero, hcons]
    simp
  have hdl : (entriesKeys c).dropLast = tl.reverse := by
    rw [hek, List.dropLast_concat]
  have hOld2 : c.keys.getD c.head 0 = old := by
    rw [keys_getD_head c hh', hcons]
    rfl
  have hmapfst : c.entries.map Prod.fst = tl.reverse ++ [old] := hek
  obtain ⟨e1, e2, hsplit, hm1, hm2⟩ := List.map_eq_append_iff.mp hmapfst
  obtain ⟨p, hp1, hp2⟩ : ∃ p, e2 = [p] ∧ p.1 = old := by
    cases e2 with
    | nil => simp at hm2
    | cons q qs =>
      cases qs with
      | nil =>
        refine ⟨q, rfl, ?_⟩
        simpa using hm2
      | cons r rs => simp at hm2
  have hnd' : (tl.reverse ++ [old]).Nodup := hek ▸ hnd
  have hold_notin : old ∉ tl.reverse := by
    intro hmem
    exact (List.nodup_append.mp hnd').2.2 hmem (by simp)
  have herase : eraseKey c.entries old = e1 := by
    rw [hsplit, eraseKey_append, hp1,
      eraseKey_of_not_mem e1 old (by rw [hm1]; exact hold_notin)]
    simp [eraseKey, hp2]
  obtain ⟨he, -, -, -⟩ := Set_fresh c k n v hlk
  refine ⟨e1, old, ?_, ?_, ?_, ?_, hOld2⟩
  · rw [he, if_pos hfull, hOld2, herase]
  · rw [hm1, hdl]
  · rw [hdl]
    exact hek
  · rw [hdl]
    exact hold_notin

theorem CacheInv_Set (c : L1Cache) (k n : ℕ) (v : ℚ) (hc : CacheInv c) :
    CacheInv (c.Set k n v) := by
  obtain ⟨hkl, hhd, hlen, hring, hnd⟩ := hc
  cases hlk : lookupKey c.entries k with
  | some s0 =>
    obtain ⟨he, hk2, hh2, hs2⟩ := Set_existing c k n v s0 hlk
    have hek : entriesKeys (c.Set k n v) = entriesKeys c := by
      unfold entriesKeys
      rw [he, updSeries_map_fst]
    have hlen2 : (c.Set k n v).entries.length = c.entries.length := by
      have := congrArg List.length hek
      simpa [entriesKeys] using this
    have hra : ringAt (c.Set k n v) = ringAt c := by
      unfold ringAt
      rw [hk2, hh2]
    exact ⟨by rw [hk2, hs2, hkl], by rw [hh2, hs2]; exact hhd,
      by rw [hlen2, hs2]; exact hlen,
      by rw [hek, hra, hs2, hlen2]; exact hring, by rw [hek]; exact hnd⟩
  | none =>
    obtain ⟨he, hk2, hh2, hs2⟩ := Set_fresh c k n v hlk
    have hs1 : 1 ≤ c.size := by omega
    have hknotin : k ∉ entriesKeys c := (lookupKey_eq_none_iff _ _).mp hlk
    have hra : ringAt (c.Set k n v) = (ringAt c).tail ++ [k] :=
      ringAt_Set_fresh c k n v hlk hkl hhd
    have hrlen : (ringAt c).length = c.size := by rw [ringAt_length, hkl]
    have hkeylen : (c.Set k n v).keys.length = (c.Set k n v).size := by
      rw [hk2, hs2, List.length_set, hkl]
    have hheadlt : (c.Set k n v).head < (c.Set k n v).size := by
      rw [hh2, hs2]
      exact Nat.mod_lt _ (by omega)
    by_cases hfull : c.size ≤ c.entries.length
    · obtain ⟨e1, old, hent, hm1, hcc, hold_notin, -⟩ :=
        Set_fresh_full_entries c k n v ⟨hkl, hhd, hlen, hring, hnd⟩ hfull hlk
      have hlen_eq : c.entries.length = c.size := Nat.le_antisymm hlen hfull
      have he1len : e1.length = c.size - 1 := by
        have h1 := congrArg List.length hm1
        have h2 := congrArg List.length hcc
        simp only [List.length_map, List.length_append, List.length_dropLast,
          List.length_singleton] at h1 h2
        have h3 : (entriesKeys c).length = c.entries.length := by
          simp [entriesKeys]
        omega
      have hlen2 : (c.Set k n v).entries.length = c.size := by
        rw [hent]
        simp only [List.length_cons, he1len]
        omega
      have hek2 : entriesKeys (c.Set k n v) = k :: (entriesKeys c).dropLast := by
        unfold entriesKeys
        rw [hent]
        simp only [List.map_cons]
        rw [hm1]
        rfl
      have h4 : ringAt c = (entriesKeys c).reverse := by
        rw [hring, hlen_eq, Nat.sub_self, List.drop_zero, List.reverse_reverse]
      have htail : (ringAt c).tail = ((entriesKeys c).dropLast).reverse := by
        rw [h4, hcc]
        simp [List.reverse_append]
      refine ⟨hkeylen, hheadlt, by rw [hlen2, hs2], ?_, ?_⟩
      · rw [hek2, hra, hs2, hlen2, Nat.sub_self, List.drop_zero, htail]
        simp
      · rw [hek2]
        refine List.nodup_cons.mpr ⟨?_, ?_⟩
        · intro hmem
          exact hknotin (by rw [hcc]; exact List.mem_append_left _ hmem)
        · have : (entriesKeys c).dropLast.Sublist (entriesKeys c) :=
            List.dropLast_sublist _
          exact this.nodup hnd
    · have hent : (c.Set k n v).entries = (k, [(n, v)]) :: c.entries := by
        rw [he, if_neg hfull]
      have hlen2 : (c.Set k n v).entries.length = c.entries.length + 1 := by
        rw [hent]
        rfl
      have hek2 : entriesKeys (c.Set k n v) = k :: entriesKeys c := by
        unfold entriesKeys
        rw [hent]
        rfl
      refine ⟨hkeylen, hheadlt, by rw [hlen2, hs2]; omega, ?_, ?_⟩
      · rw [hek2, hra, hs2, hlen2]
        have hd1 : c.size - (c.entries.length + 1) ≤ (ringAt c).tail.length := by
          rw [List.length_tail, hrlen]
          omega
        rw [List.drop_append_of_le_length hd1]
        have hdd : (ringAt c).tail.drop (c.size - (c.entries.length + 1)) =
            (ringAt c).drop (c.size - c.entries.length) := by
          rw [← List.drop_one, List.drop_drop]
          congr 1
          omega
        rw [hdd]
        simp only [List.reverse_append, List.reverse_cons, List.reverse_nil,
          List.nil_append, List.singleton_append]
        rw [← hring]
      · rw [hek2]
        exact List.nodup_cons.mpr ⟨hknotin, hnd⟩

theorem map_fst_pairs (l : List ℕ) :
    (l.map (fun k => (k, [((0:ℕ), (0:ℚ))]))).map Prod.fst = l := by
  induction l with
  | nil => rfl
  | cons a t ih =>
    simp only [List.map_cons]
    rw [ih]

theorem insertKeys_snoc (s : ℕ) (ks : List ℕ) (k : ℕ) :
    insertKeys s (ks ++ [k]) = (insertKeys s ks).Set k 0 0 := by
  unfold insertKeys applyOps
  rw [List.map_append, List.foldl_append]
  rfl

theorem insertKeys_state (s : ℕ) (hs : 1 ≤ s) (done : List ℕ) (hnd : done.Nodup) :
    (insertKeys s done).size = s ∧
    (insertKeys s done).keys.length = s ∧
    (insertKeys s done).head = done.length % s ∧
    (insertKeys s done).entries =
      ((done.drop (done.length - s)).reverse).map (fun k => (k, [((0:ℕ), (0:ℚ))])) ∧
    ringAt (insertKeys s done) =
      List.replicate (s - done.length) 0 ++ done.drop (done.length - s) := by
  induction done using List.reverseRecOn with
  | nil =>
    refine ⟨rfl, by simp [insertKeys, applyOps, NewL1Cache], ?_,
      by simp [insertKeys, applyOps, NewL1Cache], ?_⟩
    · show (NewL1Cache s).head = _
      simp [NewL1Cache]
    · show ringAt (NewL1Cache s) = _
      simp [ringAt, NewL1Cache]
  | append_singleton done k ih =>
    rw [List.nodup_append] at hnd
    have hnd1 : done.Nodup := hnd.1
    have hkni : k ∉ done := fun hm => hnd.2.2 hm (by simp)
    obtain ⟨ihs, ihkl, ihh, ihe, ihr⟩ := ih hnd1
    rw [insertKeys_snoc]
    have hmapfst : (insertKeys s done).entries.map Prod.fst =
        (done.drop (done.length - s)).reverse := by
      rw [ihe, map_fst_pairs]
    have hlk : lookupKey (insertKeys s done).entries k = none := by
      rw [lookupKey_eq_none_iff, hmapfst]
      intro hmem
      exact hkni ((List.drop_sublist _ _).mem (List.mem_reverse.mp hmem))
    obtain ⟨he, hk2, hh2, hs2⟩ := Set_fresh (insertKeys s done) k 0 0 hlk
    have hhd : (insertKeys s done).head < (insertKeys s done).size := by
      rw [ihh, ihs]
      exact Nat.mod_lt _ (by omega)
    have hra : ringAt ((insertKeys s done).Set k 0 0) =
        (ringAt (insertKeys s done)).tail ++ [k] :=
      ringAt_Set_fresh _ k 0 0 hlk (by rw [ihkl, ihs]) hhd
    have hclen : (insertKeys s done).entries.length =
        done.length - (done.length - s) := by
      rw [ihe]
      simp
    refine ⟨by rw [hs2, ihs], by rw [hk2, List.length_set, ihkl], ?_, ?_, ?_⟩
    · rw [hh2, ihh, ihs, Nat.mod_add_mod]
      simp
    · simp only [List.length_append, List.length_singleton]
      by_cases hcase : s ≤ done.length
      · have hfull : (insertKeys s done).size ≤ (insertKeys s done).entries.length := by
          rw [ihs, hclen]
          omega
        obtain ⟨old, rest, hdrop⟩ :
            ∃ a t, done.drop (done.length - s) = a :: t := by
          cases hd : done.drop (done.length - s) with
          | nil =>
            exfalso
            have := List.drop_eq_nil_iff.mp hd
            omega
          | cons a t => exact ⟨a, t, rfl⟩
        have hsj : s - done.length = 0 := by omega
        have hOld : (insertKeys s done).keys.getD (insertKeys s done).head 0 = old := by
          rw [keys_getD_head _ (hhd.trans_le (le_of_eq (by rw [ihs, ihkl])))]
          rw [ihr, hsj, List.replicate_zero, List.nil_append, hdrop]
          rfl
        have hndrop : (old :: rest).Nodup := by
          rw [← hdrop]
          exact (List.drop_sublist _ _).nodup hnd1
        have hold_rest : old ∉ rest := (List.nodup_cons.mp hndrop).1
        have hent_eq : (insertKeys s done).entries =
            (rest.reverse).map (fun k => (k, [((0:ℕ), (0:ℚ))])) ++
              [(old, [((0:ℕ), (0:ℚ))])] := by
          rw [ihe, hdrop]
          simp
        have herase : eraseKey (insertKeys s done).entries old =
            (rest.reverse).map (fun k => (k, [((0:ℕ), (0:ℚ))])) := by
          rw [hent_eq, eraseKey_append,
            eraseKey_of_not_mem _ old (by
              rw [map_fst_pairs]
              intro hm
              exact hold_rest (List.mem_reverse.mp hm))]
          simp [eraseKey]
        have h6 : done.drop ((done.length - s) + 1) = rest := by
          rw [← List.drop_drop, hdrop]
          rfl
        have h5 : (done ++ [k]).drop (done.length + 1 - s) = rest ++ [k] := by
          have hl : done.length + 1 - s = (done.length - s) + 1 := by omega
          rw [hl, List.drop_append_of_le_length (by omega), h6]
        rw [he, if_pos hfull, hOld, herase, h5]
        simp
      · have hnotfull :
            ¬ ((insertKeys s done).size ≤ (insertKeys s done).entries.length) := by
          rw [ihs, hclen]
          omega
        have hd0 : done.length - s = 0 := by omega
        have hd0' : done.length + 1 - s = 0 := by omega
        rw [he, if_neg hnotfull, ihe, hd0, hd0']
        simp
    · simp only [List.length_append, List.length_singleton]
      rw [hra, ihr]
      by_cases hcase : s ≤ done.length
      · obtain ⟨old, rest, hdrop⟩ :
            ∃ a t, done.drop (done.length - s) = a :: t := by
          cases hd : done.drop (done.length - s) with
          | nil =>
            exfalso
            have := List.drop_eq_nil_iff.mp hd
            omega
          | cons a t => exact ⟨a, t, rfl⟩
        have hsj : s - done.length = 0 := by omega
        have hsj' : s - (done.length + 1) = 0 := by omega
        have h6 : done.drop ((done.length - s) + 1) = rest := by
          rw [← List.drop_drop, hdrop]
          rfl
        have h5 : (done ++ [k]).drop (done.length + 1 - s) = rest ++ [k] := by
          have hl : done.length + 1 - s = (done.length - s) + 1 := by omega
          rw [hl, List.drop_append_of_le_length (by omega), h6]
        rw [hsj, hsj', List.replicate_zero, List.nil_append, List.nil_append,
          hdrop, List.tail_cons, h5]
      · have hd0 : done.length - s = 0 := by omega
        have hd0' : done.length + 1 - s = 0 := by omega
        have hsplit : s - done.length = (s - (done.length + 1)) + 1 := by omega
        rw [hd0, hd0', List.drop_zero, List.drop_zero, hsplit, List.replicate_succ,
          List.cons_append, List.tail_cons, List.append_assoc]

theorem CacheInv_NewL1Cache (s : ℕ) (hs : 1 ≤ s) : CacheInv (NewL1Cache s) := by
  refine ⟨by simp [NewL1Cache], by simpa [NewL1Cache] using hs,
    by simp [NewL1Cache], ?_, by simp [entriesKeys, NewL1Cache]⟩
  show entriesKeys (NewL1Cache s) = _
  simp [entriesKeys, NewL1Cache, ringAt]

theorem CacheInv_applyOps (ops : List (ℕ × ℕ × ℚ)) (c : L1Cache) (hc : CacheInv c) :
    CacheInv (applyOps ops c) := by
  induction ops generalizing c with
  | nil => exact hc
  | cons op ops ih => exact ih _ (CacheInv_Set c op.1 op.2.1 op.2.2 hc)

theorem Set_size (c : L1Cache) (k n : ℕ) (v : ℚ) : (c.Set k n v).size = c.size := by
  cases hlk : lookupKey c.entries k with
  | some s0 => exact (Set_existing c k n v s0 hlk).2.2.2
  | none => exact (Set_fresh c k n v hlk).2.2.2

theorem applyOps_size (ops : List (ℕ × ℕ × ℚ)) (c : L1Cache) :
    (applyOps ops c).size = c.size := by
  induction ops generalizing c with
  | nil => rfl
  | cons op ops ih =>
    rw [show applyOps (op :: ops) c = applyOps ops (c.Set op.1 op.2.1 op.2.2) from rfl,
      ih, Set_size]

/-- Counterexample to claim C2 as stated: inserting the four distinct keys
1, 2, 3, 4 into a capacity-2 cache leaves only the last two keys; key 2 is a
later-inserted key (not the first), yet it is absent, refuting the claim that
after inserting more than c distinct keys all later-inserted keys remain
present. -/
theorem claim_C2_counterexample :
    ([1, 2, 3, 4] : List ℕ).Nodup ∧ 2 < ([1, 2, 3, 4] : List ℕ).length ∧
    (insertKeys 2 [1, 2, 3, 4]).Get 2 0 = none ∧
    (insertKeys 2 [1, 2, 3, 4]).Get 1 0 = none ∧
    (insertKeys 2 [1, 2, 3, 4]).Get 3 0 = some 0 ∧
    (insertKeys 2 [1, 2, 3, 4]).Get 4 0 = some 0 :=
  ⟨by decide, by decide, by with_unfolding_all rfl, by with_unfolding_all rfl,
   by with_unfolding_all rfl, by with_unfolding_all rfl⟩

/-- Claim C2 (amended): for every sequence of Set operations on a fresh cache
of capacity s at least 1, the number of keys held never exceeds s and the held
keys are distinct; a Set whose key is already present evicts nothing and leaves
the ring untouched; a Set with a fresh key at capacity evicts exactly the
oldest-inserted surviving key together with all of its steps; and after
inserting m > s distinct fresh keys the cache holds exactly the LAST s inserted
keys -- so the first-inserted key is absent, but so is every key other than the
last s, contrary to the original claim that all later-inserted keys remain. -/
theorem claim_C2_amended :
    (∀ (s : ℕ) (ops : List (ℕ × ℕ × ℚ)), 1 ≤ s →
      (applyOps ops (NewL1Cache s)).entries.length ≤ s ∧
      (entriesKeys (applyOps ops (NewL1Cache s))).Nodup)
    ∧ (∀ (c : L1Cache) (k n : ℕ) (v : ℚ) (s0 : List (ℕ × ℚ)),
        lookupKey c.entries k = some s0 →
        entriesKeys (c.Set k n v) = entriesKeys c ∧ (c.Set k n v).keys = c.keys)
    ∧ (∀ (c : L1Cache) (k n : ℕ) (v : ℚ), CacheInv c →
        c.size ≤ c.entries.length → lookupKey c.entries k = none →
        entriesKeys (c.Set k n v) = k :: (entriesKeys c).dropLast ∧
        ∀ old, (entriesKeys c).getLast? = some old →
          ∀ m, (c.Set k n v).Get old m = none)
    ∧ (∀ (s : ℕ) (ks : List ℕ), 1 ≤ s → ks.Nodup → s ≤ ks.length →
        entriesKeys (insertKeys s ks) = (ks.reverse).take s) := by
  refine ⟨?_, ?_, ?_, ?_⟩
  · intro s ops hs
    have hinv := CacheInv_applyOps ops (NewL1Cache s) (CacheInv_NewL1Cache s hs)
    obtain ⟨-, -, hlen, -, hnd⟩ := hinv
    have hsize : (applyOps ops (NewL1Cache s)).size = s := applyOps_size ops _
    exact ⟨le_trans hlen (le_of_eq hsize), hnd⟩
  · intro c k n v s0 h
    obtain ⟨he, hk2, -, -⟩ := Set_existing c k n v s0 h
    refine ⟨?_, hk2⟩
    unfold entriesKeys
    rw [he, updSeries_map_fst]
  · intro c k n v hc hfull hlk
    obtain ⟨e1, old, hent, hm1, hcc, hold_notin, -⟩ :=
      Set_fresh_full_entries c k n v hc hfull hlk
    have hek2 : entriesKeys (c.Set k n v) = k :: e1.map Prod.fst := by
      unfold entriesKeys
      rw [hent]
      rfl
    refine ⟨by rw [hek2, hm1], ?_⟩
    intro old' hlast m
    have hlast2 : (entriesKeys c).getLast? = some old := by
      rw [hcc]
      exact List.getLast?_concat _
    have ho : old' = old := by
      rw [hlast2] at hlast
      exact (Option.some.inj hlast).symm
    subst ho
    have hknotin : k ∉ entriesKeys c := (lookupKey_eq_none_iff _ _).mp hlk
    have hom : old' ∈ entriesKeys c := by
      rw [hcc]
      exact List.mem_append_right _ (by simp)
    have hne : ¬ ((k, [(n, v)]) : ℕ × List (ℕ × ℚ)).1 = old' := by
      intro hkeq
      exact hknotin (by rw [← hkeq] at hom; exact hom)
    have hlook : lookupKey ((k, [(n, v)]) :: e1) old' = none := by
      show (if ((k, [(n, v)]) : ℕ × List (ℕ × ℚ)).1 = old' then _ else _) = _
      rw [if_neg hne]
      rw [lookupKey_eq_none_iff, hm1]
      exact hold_notin
    unfold L1Cache.Get tblGet
    rw [hent, hlook]
  · intro s ks hs hnd hlen
    obtain ⟨-, -, -, he, -⟩ := insertKeys_state s hs ks hnd
    show entriesKeys (insertKeys s ks) = (ks.reverse).take s
    unfold entriesKeys
    rw [he, map_fst_pairs, List.reverse_drop]
    congr 1
    omega

/-- Witness for the amended claim C2: the capacity bound after three inserts
into a capacity-2 cache, an existing-key update leaving keys unchanged, an
eviction step on a concrete full cache, and the last-2-of-4 insertion shape. -/
theorem claim_C2_amended_witness :
    ((applyOps [(5, 0, 1), (6, 0, 2), (7, 0, 3)] (NewL1Cache 2)).entries.length ≤ 2 ∧
      (entriesKeys (applyOps [(5, 0, 1), (6, 0, 2), (7, 0, 3)] (NewL1Cache 2))).Nodup) ∧
    (entriesKeys ((⟨[(7, [(0, 0)])], [7, 0], 2, 1⟩ : L1Cache).Set 7 1 (1/2)) =
        entriesKeys (⟨[(7, [(0, 0)])], [7, 0], 2, 1⟩ : L1Cache) ∧
      ((⟨[(7, [(0, 0)])], [7, 0], 2, 1⟩ : L1Cache).Set 7 1 (1/2)).keys =
        (⟨[(7, [(0, 0)])], [7, 0], 2, 1⟩ : L1Cache).keys) ∧
    (entriesKeys ((⟨[(2, [(0, 0)]), (1, [(0, 0)])], [1, 2], 2, 0⟩ : L1Cache).Set 9 0 0) =
        9 :: (entriesKeys
          (⟨[(2, [(0, 0)]), (1, [(0, 0)])], [1, 2], 2, 0⟩ : L1Cache)).dropLast ∧
      ∀ old, (entriesKeys
            (⟨[(2, [(0, 0)]), (1, [(0, 0)])], [1, 2], 2, 0⟩ : L1Cache)).getLast? =
          some old →
        ∀ m, ((⟨[(2, [(0, 0)]), (1, [(0, 0)])], [1, 2], 2, 0⟩ :
          L1Cache).Set 9 0 0).Get old m = none) ∧
    entriesKeys (insertKeys 2 [1, 2, 3, 4]) = (([1, 2, 3, 4] : List ℕ).reverse).take 2 :=
  ⟨claim_C2_amended.1 2 [(5, 0, 1), (6, 0, 2), (7, 0, 3)] (by norm_num),
   claim_C2_amended.2.1 _ 7 1 (1/2) [(0, 0)] (by with_unfolding_all rfl),
   claim_C2_amended.2.2.1 _ 9 0 0
     (by
       unfold CacheInv
       refine ⟨rfl, by norm_num, by decide, by with_unfolding_all rfl, by decide⟩)
     (by decide) (by with_unfolding_all rfl),
   claim_C2_amended.2.2.2 2 [1, 2, 3, 4] (by norm_num) (by decide) (by decide)⟩

end ResilientRecursion
